import Mathlib

/-!
# Verification of the citra rasterizer surface cache and accelerated rasterizer

Shallow embedding of `src/video_core/rasterizer_accelerated.cpp` and
`src/video_core/rasterizer_cache/rasterizer_cache.h` (Citra 3DS emulator,
VideoCore namespace), together with proofs about the embedded operations.

Machine integers are modelled as `Nat`/`Int` (with explicit `% 2^32` where
overflow matters), guest float values as exact rationals, and the boost
interval containers as lists of half-open `Nat` intervals.
-/

namespace VideoCore

/-! ## Page tracker (`RasterizerAccelerated::UpdatePagesCachedCount`, `ClearAll`)

Embeds `rasterizer_accelerated.cpp` lines 91–181.  The page table
`cached_pages` is a function from page index to its 16-bit counter (modelled
as `Nat`; the source asserts that no overflow/underflow happens).  Calls to
`VideoCore::g_memory->RasterizerMarkRegionCached` are collected in an output
list, in emission order. -/

/-- `Memory::CITRA_PAGE_BITS` -/
def citraPageBits : Nat := 12

/-- `Memory::CITRA_PAGE_SIZE` -/
def citraPageSize : Nat := 4096

/-- One emitted `RasterizerMarkRegionCached(addr, size, cached)` call. -/
structure MarkCall where
  addr : Nat
  size : Nat
  cached : Bool
deriving DecidableEq, Repr

/-- Accumulator state of the `UpdatePagesCachedCount` loop: the two
run-length accumulators with their start addresses, and the calls emitted
so far. -/
structure TrackerAccum where
  uncache_start_addr : Nat
  cache_start_addr : Nat
  uncache_bytes : Nat
  cache_bytes : Nat
  calls : List MarkCall
deriving DecidableEq, Repr

/-- The accumulator logic of one iteration of the page loop in
`UpdatePagesCachedCount` (lines 116–138), given the already-bumped counter
`count` of the current `page` and whether `count == 1 && delta > 0`. -/
def trackerAccumStep (page count : Nat) (cacheEdge : Bool) (a : TrackerAccum) : TrackerAccum :=
  let a1 :=
    if count = 0 then
      { a with
        uncache_start_addr :=
          if a.uncache_bytes = 0 then page <<< citraPageBits else a.uncache_start_addr
        uncache_bytes := a.uncache_bytes + citraPageSize }
    else if 0 < a.uncache_bytes then
      { a with
        uncache_bytes := 0
        calls := a.calls ++ [⟨a.uncache_start_addr, a.uncache_bytes, false⟩] }
    else a
  if cacheEdge then
    { a1 with
      cache_start_addr :=
        if a1.cache_bytes = 0 then page <<< citraPageBits else a1.cache_start_addr
      cache_bytes := a1.cache_bytes + citraPageSize }
  else if 0 < a1.cache_bytes then
    { a1 with
      cache_bytes := 0
      calls := a1.calls ++ [⟨a1.cache_start_addr, a1.cache_bytes, true⟩] }
  else a1

/-- Loop state of `UpdatePagesCachedCount`: the page table plus the
accumulators. -/
structure TrackerState where
  pages : Nat → Nat
  accum : TrackerAccum

/-- One full iteration of the page loop (lines 100–139): bump the counter at
`page` by `delta`, then run both accumulators. -/
def trackerStep (delta : Int) (st : TrackerState) (page : Nat) : TrackerState :=
  let count : Nat := (Int.ofNat (st.pages page) + delta).toNat
  { pages := fun p => if p = page then count else st.pages p
    accum := trackerAccumStep page count (decide (count = 1) && decide (0 < delta)) st.accum }

/-- Emit the still-pending runs at the loop terminus
(lines 141–147): first the uncache run, then the cache run. -/
def trackerFinish (a : TrackerAccum) : List MarkCall :=
  (a.calls ++
    (if 0 < a.uncache_bytes then [⟨a.uncache_start_addr, a.uncache_bytes, false⟩] else [])) ++
  (if 0 < a.cache_bytes then [⟨a.cache_start_addr, a.cache_bytes, true⟩] else [])

/-- `RasterizerAccelerated::UpdatePagesCachedCount` (lines 91–148): traverse
the pages covering `[addr, addr+size)`, then emit any still-pending runs.
Returns the updated page table and the list of
`RasterizerMarkRegionCached` calls in order. -/
def updatePagesCachedCount (pages : Nat → Nat) (addr size : Nat) (delta : Int) :
    (Nat → Nat) × List MarkCall :=
  let page_start := addr >>> citraPageBits
  let page_end := ((addr + size - 1) >>> citraPageBits) + 1
  let st := (List.range' page_start (page_end - page_start)).foldl (trackerStep delta)
    ⟨pages, ⟨0, 0, 0, 0, []⟩⟩
  (st.pages, trackerFinish st.accum)

/-- Loop state of `ClearAll`: uncache accumulator and emitted calls. -/
structure ClearAllState where
  uncache_start_addr : Nat
  uncache_bytes : Nat
  calls : List MarkCall
deriving DecidableEq, Repr

/-- One iteration of the page loop in `ClearAll` (lines 159–174). -/
def clearAllStep (pages : Nat → Nat) (st : ClearAllState) (page : Nat) : ClearAllState :=
  if pages page ≠ 0 then
    { st with
      uncache_start_addr :=
        if st.uncache_bytes = 0 then page <<< citraPageBits else st.uncache_start_addr
      uncache_bytes := st.uncache_bytes + citraPageSize }
  else if 0 < st.uncache_bytes then
    { st with
      uncache_bytes := 0
      calls := st.calls ++ [⟨st.uncache_start_addr, st.uncache_bytes, false⟩] }
  else
    st

/-- `RasterizerAccelerated::ClearAll` (lines 150–181), without the optional
full flush (which touches only the surface cache, not the page table):
walk every page of the table, emit a bulk uncache for every run of nonzero
pages — including the trailing run at the loop terminus (line 176) — and
zero the table (`cached_pages = {}`). -/
def clearAll (pages : Nat → Nat) (numPages : Nat) : (Nat → Nat) × List MarkCall :=
  let st := (List.range numPages).foldl (clearAllStep pages) ⟨0, 0, []⟩
  let calls :=
    st.calls ++
      (if 0 < st.uncache_bytes then [⟨st.uncache_start_addr, st.uncache_bytes, false⟩] else [])
  (fun _ => 0, calls)

/-- Specification-side description of `ClearAll`'s batching: the maximal
runs of consecutive pages with nonzero counters, scanning `n` pages from
page `i`, with `cur` the run currently being accumulated (start page and
page count).  Each finished run is one `(start, length)` pair. -/
def nonzeroRuns (pages : Nat → Nat) : Nat → Nat → Option (Nat × Nat) → List (Nat × Nat)
  | _, 0, none => []
  | _, 0, some r => [r]
  | i, n + 1, cur =>
    if pages i ≠ 0 then
      nonzeroRuns pages (i + 1) n
        (some (match cur with | none => (i, 1) | some (s, k) => (s, k + 1)))
    else
      match cur with
      | none => nonzeroRuns pages (i + 1) n none
      | some r => r :: nonzeroRuns pages (i + 1) n none

/-- A page-level run converted to the `RasterizerMarkRegionCached(…, false)`
call `ClearAll` emits for it. -/
def runToCall (r : Nat × Nat) : MarkCall :=
  ⟨r.1 * citraPageSize, r.2 * citraPageSize, false⟩

lemma shiftLeft_pageBits (p : Nat) : p <<< citraPageBits = p * citraPageSize := by
  simp [Nat.shiftLeft_eq, citraPageBits, citraPageSize]

/-- `trackerStep` changes the page table only at the traversed page. -/
lemma trackerStep_pages_ne (delta : Int) (st : TrackerState) (page p : Nat) (h : p ≠ page) :
    (trackerStep delta st page).pages p = st.pages p := by
  simp [trackerStep, h]

/-- The fold of `trackerStep` leaves pages outside the traversed list
unchanged. -/
lemma trackerFold_pages_not_mem (delta : Int) :
    ∀ (l : List Nat) (st : TrackerState) (p : Nat), p ∉ l →
      ((l.foldl (trackerStep delta) st).pages p = st.pages p) := by
  intro l
  induction l with
  | nil => intro st p _; rfl
  | cons a l ih =>
    intro st p hp
    simp only [List.mem_cons, not_or] at hp
    simp only [List.foldl_cons]
    rw [ih _ _ hp.2, trackerStep_pages_ne _ _ _ _ hp.1]

/-- `updatePagesCachedCount` leaves pages outside the covered page range
unchanged. -/
lemma updatePagesCachedCount_pages_outside (pages : Nat → Nat) (addr size : Nat) (delta : Int)
    (p : Nat) (h : p < addr >>> citraPageBits ∨ ((addr + size - 1) >>> citraPageBits) + 1 ≤ p) :
    (updatePagesCachedCount pages addr size delta).1 p = pages p := by
  have hp : p ∉ List.range' (addr >>> citraPageBits)
      (((addr + size - 1) >>> citraPageBits) + 1 - (addr >>> citraPageBits)) := by
    intro hmem
    rw [List.mem_range'] at hmem
    obtain ⟨i, hi, hlt⟩ := hmem
    omega
  exact trackerFold_pages_not_mem delta _ _ p hp

/-- **C1.** Page tracker 0→1→0: from an all-zero table,
`UpdatePagesCachedCount(0x1000, 0x3000, +1)` invokes
`RasterizerMarkRegionCached` exactly once, for the whole contiguous page
range `[0x1000, 0x4000)` covering the byte range, with `cached = true`; a
subsequent `UpdatePagesCachedCount(0x1000, 0x3000, -1)` invokes it exactly
once with the same range and `cached = false`, and afterwards every entry of
`cached_pages` is zero. -/
theorem updatePagesCachedCount_zero_one_zero :
    (updatePagesCachedCount (fun _ => 0) 0x1000 0x3000 1).2 = [⟨0x1000, 0x3000, true⟩] ∧
    (updatePagesCachedCount (updatePagesCachedCount (fun _ => 0) 0x1000 0x3000 1).1
        0x1000 0x3000 (-1)).2 = [⟨0x1000, 0x3000, false⟩] ∧
    ∀ p, (updatePagesCachedCount (updatePagesCachedCount (fun _ => 0) 0x1000 0x3000 1).1
        0x1000 0x3000 (-1)).1 p = 0 := by
  refine ⟨by decide, by decide, ?_⟩
  intro p
  by_cases h1 : p = 1
  · subst h1; decide
  by_cases h2 : p = 2
  · subst h2; decide
  by_cases h3 : p = 3
  · subst h3; decide
  have houtside : p < (0x1000 : Nat) >>> citraPageBits ∨
      (((0x1000 : Nat) + 0x3000 - 1) >>> citraPageBits) + 1 ≤ p := by
    have : ((0x1000 : Nat) >>> citraPageBits) = 1 := by decide
    have : (((0x1000 : Nat) + 0x3000 - 1) >>> citraPageBits) + 1 = 4 := by decide
    omega
  rw [updatePagesCachedCount_pages_outside _ _ _ _ _ houtside,
      updatePagesCachedCount_pages_outside _ _ _ _ _ houtside]


/-- The `ClearAll` page loop, followed by the terminal pending-run emission,
produces exactly the calls for the maximal nonzero runs, given a consistent
accumulator/current-run correspondence. -/
lemma clearAll_loop_runs (pages : Nat → Nat) :
    ∀ (n i : Nat) (acc : ClearAllState) (cur : Option (Nat × Nat)),
      (cur = none → acc.uncache_bytes = 0) →
      (∀ s k, cur = some (s, k) →
        acc.uncache_bytes = k * citraPageSize ∧
        acc.uncache_start_addr = s * citraPageSize ∧ 0 < k ∧ s + k = i) →
      ((List.range' i n).foldl (clearAllStep pages) acc).calls ++
          (if 0 < ((List.range' i n).foldl (clearAllStep pages) acc).uncache_bytes then
            [⟨((List.range' i n).foldl (clearAllStep pages) acc).uncache_start_addr,
              ((List.range' i n).foldl (clearAllStep pages) acc).uncache_bytes, false⟩]
          else []) =
        acc.calls ++ (nonzeroRuns pages i n cur).map runToCall := by
  intro n
  induction n with
  | zero =>
    intro i acc cur hnone hsome
    cases cur with
    | none =>
      simp [nonzeroRuns, hnone rfl]
    | some r =>
      obtain ⟨hub, hus, hk, _⟩ := hsome r.1 r.2 rfl
      have hpos : 0 < acc.uncache_bytes := by
        rw [hub]; have : 0 < citraPageSize := by decide
        exact Nat.mul_pos hk this
      simp only [List.range', List.foldl_nil, hpos, if_pos]
      simp [nonzeroRuns, runToCall, hub, hus]
  | succ n ih =>
    intro i acc cur hnone hsome
    rw [show List.range' i (n+1) = i :: List.range' (i+1) n by
      simpa using List.range'_succ i n 1]
    simp only [List.foldl_cons]
    by_cases hpi : pages i ≠ 0
    · -- nonzero page: extend (or start) the run
      have hstep : clearAllStep pages acc i =
          { acc with
            uncache_start_addr :=
              if acc.uncache_bytes = 0 then i <<< citraPageBits else acc.uncache_start_addr
            uncache_bytes := acc.uncache_bytes + citraPageSize } := by
        simp [clearAllStep, hpi]
      cases cur with
      | none =>
        have hub := hnone rfl
        have hcur' : ∀ s k, (some (i, 1) : Option (Nat × Nat)) = some (s, k) →
            (clearAllStep pages acc i).uncache_bytes = k * citraPageSize ∧
            (clearAllStep pages acc i).uncache_start_addr = s * citraPageSize ∧
            0 < k ∧ s + k = i + 1 := by
          intro s k hsk
          injection hsk with hsk
          cases hsk
          rw [hstep]
          simp [hub, shiftLeft_pageBits]
        rw [show clearAllStep pages acc i =
          (List.range' i 0).foldl (clearAllStep pages) (clearAllStep pages acc i) from rfl] at hcur'
        rw [ih (i+1) _ (some (i, 1)) (by simp) (by simpa using hcur')]
        have hruns : nonzeroRuns pages i (n+1) none = nonzeroRuns pages (i+1) n (some (i, 1)) := by
          rw [nonzeroRuns]; simp [hpi]
        rw [hruns, hstep]
      | some r =>
        obtain ⟨hub, hus, hk, hsum⟩ := hsome r.1 r.2 rfl
        have hubpos : ¬ acc.uncache_bytes = 0 := by
          have : 0 < citraPageSize := by decide
          have := Nat.mul_pos hk this
          omega
        have hcur' : ∀ s k, (some (r.1, r.2 + 1) : Option (Nat × Nat)) = some (s, k) →
            (clearAllStep pages acc i).uncache_bytes = k * citraPageSize ∧
            (clearAllStep pages acc i).uncache_start_addr = s * citraPageSize ∧
            0 < k ∧ s + k = i + 1 := by
          intro s k hsk
          injection hsk with hsk
          cases hsk
          rw [hstep]
          simp only [if_neg hubpos]
          refine ⟨by rw [hub]; ring, hus, by omega, by omega⟩
        rw [ih (i+1) _ (some (r.1, r.2 + 1)) (by simp) (by simpa using hcur')]
        have hruns : nonzeroRuns pages i (n+1) (some r) =
            nonzeroRuns pages (i+1) n (some (r.1, r.2 + 1)) := by
          rw [nonzeroRuns]; simp [hpi]
        rw [hruns, hstep]
    · -- zero page: emit the pending run, if any
      push_neg at hpi
      cases cur with
      | none =>
        have hub := hnone rfl
        have hstep : clearAllStep pages acc i = acc := by
          simp [clearAllStep, hpi, hub]
        rw [hstep, ih (i+1) _ none (fun _ => hub) (by simp)]
        have hruns : nonzeroRuns pages i (n+1) none = nonzeroRuns pages (i+1) n none := by
          rw [nonzeroRuns]; simp [hpi]
        rw [hruns]
      | some r =>
        obtain ⟨hub, hus, hk, hsum⟩ := hsome r.1 r.2 rfl
        have hpos : 0 < acc.uncache_bytes := by
          rw [hub]; have : 0 < citraPageSize := by decide
          exact Nat.mul_pos hk this
        have hstep : clearAllStep pages acc i =
            { acc with
              uncache_bytes := 0
              calls := acc.calls ++ [⟨acc.uncache_start_addr, acc.uncache_bytes, false⟩] } := by
          simp [clearAllStep, hpi, hpos]
        rw [hstep, ih (i+1) _ none (fun _ => rfl) (by simp)]
        have hruns : nonzeroRuns pages i (n+1) (some r) = r :: nonzeroRuns pages (i+1) n none := by
          rw [nonzeroRuns]; simp [hpi]
        rw [hruns]
        simp [runToCall, hub, hus]



/-- The pages covered by the maximal nonzero runs are exactly the nonzero
pages, in order (the current run `cur`, when present, ends right before
page `i`). -/
lemma nonzeroRuns_join (pages : Nat → Nat) :
    ∀ (n i : Nat) (cur : Option (Nat × Nat)),
      (∀ s k, cur = some (s, k) → s + k = i) →
      ((nonzeroRuns pages i n cur).map fun r => List.range' r.1 r.2).flatten =
        (match cur with | none => [] | some r => List.range' r.1 r.2) ++
          (List.range' i n).filter (fun p => pages p != 0) := by
  intro n
  induction n with
  | zero =>
    intro i cur _
    cases cur with
    | none => simp [nonzeroRuns]
    | some r => simp [nonzeroRuns]
  | succ n ih =>
    intro i cur hcur
    rw [show List.range' i (n+1) = i :: List.range' (i+1) n by
      simpa using List.range'_succ i n 1]
    by_cases hpi : pages i ≠ 0
    · have hfil : (i :: List.range' (i+1) n).filter (fun p => pages p != 0) =
          i :: (List.range' (i+1) n).filter (fun p => pages p != 0) := by
        simp [List.filter_cons, hpi]
    
      cases cur with
      | none =>
        have hruns : nonzeroRuns pages i (n+1) none =
            nonzeroRuns pages (i+1) n (some (i, 1)) := by
          rw [nonzeroRuns]; simp [hpi]
        rw [hruns, ih (i+1) (some (i, 1))
          (by intro s k hsk; injection hsk with hsk; cases hsk; omega), hfil]
        simp
      | some r =>
        have hsum : r.1 + r.2 = i := hcur r.1 r.2 rfl
        have hruns : nonzeroRuns pages i (n+1) (some r) =
            nonzeroRuns pages (i+1) n (some (r.1, r.2 + 1)) := by
          rw [nonzeroRuns]; simp [hpi]
        rw [hruns, ih (i+1) (some (r.1, r.2 + 1))
          (by intro s k hsk; injection hsk with hsk; cases hsk; omega), hfil]
        have hconcat : List.range' r.1 (r.2 + 1) = List.range' r.1 r.2 ++ [i] := by
          have := @List.range'_concat 1 r.1 r.2
          simpa [hsum] using this
        simp [hconcat]
    · push_neg at hpi
      have hfil : (i :: List.range' (i+1) n).filter (fun p => pages p != 0) =
          (List.range' (i+1) n).filter (fun p => pages p != 0) := by
        simp [List.filter_cons, hpi]
      cases cur with
      | none =>
        have hruns : nonzeroRuns pages i (n+1) none = nonzeroRuns pages (i+1) n none := by
          rw [nonzeroRuns]; simp [hpi]
        rw [hruns, ih (i+1) none (by simp), hfil]
      | some r =>
        have hruns : nonzeroRuns pages i (n+1) (some r) =
            r :: nonzeroRuns pages (i+1) n none := by
          rw [nonzeroRuns]; simp [hpi]
        rw [hruns, hfil]
        simp only [List.map_cons, List.flatten_cons]
        rw [ih (i+1) none (by simp)]
        simp

/-- **C7.** `ClearAll` reports every page whose counter is nonzero as
uncached exactly once: it emits exactly one `RasterizerMarkRegionCached`
call per maximal contiguous run of nonzero pages — including the final
trailing run that reaches the end of the page table — every call has
`cached = false`, the pages covered by the emitted calls are exactly the
nonzero pages, and afterwards every entry of `cached_pages` is zero. -/
theorem clearAll_spec (pages : Nat → Nat) (numPages : Nat) :
    (clearAll pages numPages).2 = (nonzeroRuns pages 0 numPages none).map runToCall ∧
    ((clearAll pages numPages).2.map
        (fun c => List.range' (c.addr / citraPageSize) (c.size / citraPageSize))).flatten =
      (List.range numPages).filter (fun p => pages p != 0) ∧
    ((clearAll pages numPages).2.all fun c => !c.cached) = true ∧
    ∀ p, (clearAll pages numPages).1 p = 0 := by
  have hcalls : (clearAll pages numPages).2 =
      (nonzeroRuns pages 0 numPages none).map runToCall := by
    have := clearAll_loop_runs pages numPages 0 ⟨0, 0, []⟩ none (fun _ => rfl)
      (by intro s k h; cases h)
    simpa [clearAll, List.range_eq_range'] using this
  refine ⟨hcalls, ?_, ?_, fun _ => rfl⟩
  · rw [hcalls, List.map_map]
    have hmaps : ((fun c : MarkCall =>
        List.range' (c.addr / citraPageSize) (c.size / citraPageSize)) ∘ runToCall) =
        fun r : Nat × Nat => List.range' r.1 r.2 := by
      funext r
      simp [runToCall, Nat.mul_div_cancel, citraPageSize]
    rw [hmaps, nonzeroRuns_join pages numPages 0 none (by simp), List.range_eq_range']
    simp
  · rw [hcalls, List.all_eq_true]
    intro c hc
    obtain ⟨r, _, hr⟩ := List.mem_map.mp hc
    subst hr
    rfl



/-! ## Vertex batching (`AddTriangle`, `HardwareVertex`)

Embeds `rasterizer_accelerated.cpp` lines 24–52 (the `normquat` handling of
the `HardwareVertex` constructor) and 76–89.  The guest `float24` values and
the float32 arithmetic are modelled as exact rationals; negation and sign
comparison are exact in both models. -/

/-- A vertex quaternion, as exact rationals. -/
structure Quat where
  x : ℚ
  y : ℚ
  z : ℚ
  w : ℚ
deriving DecidableEq, Repr

/-- `Common::Dot` on 4-vectors. -/
def Quat.dot (a b : Quat) : ℚ := a.x * b.x + a.y * b.y + a.z * b.z + a.w * b.w

/-- Componentwise negation (`normquat = -normquat`). -/
def Quat.negate (a : Quat) : Quat := ⟨-a.x, -a.y, -a.z, -a.w⟩

/-- `AreQuaternionsOpposite` (lines 76–81): `Dot(a, b) < 0`. -/
def areQuaternionsOpposite (qa qb : Quat) : Bool := decide (Quat.dot qa qb < 0)

/-- The `normquat` field stored by the `HardwareVertex` constructor
(lines 41–51): the vertex quaternion, negated when `flip_quaternion`. -/
def hardwareVertexNormquat (quat : Quat) (flip_quaternion : Bool) : Quat :=
  if flip_quaternion then quat.negate else quat

/-- `AddTriangle` (lines 83–89): the three `normquat`s pushed into
`vertex_batch`, in order. -/
def addTriangleNormquats (q0 q1 q2 : Quat) : List Quat :=
  [hardwareVertexNormquat q0 false,
   hardwareVertexNormquat q1 (areQuaternionsOpposite q0 q1),
   hardwareVertexNormquat q2 (areQuaternionsOpposite q0 q2)]

lemma Quat.dot_negate (a b : Quat) : Quat.dot a b.negate = -(Quat.dot a b) := by
  simp only [Quat.dot, Quat.negate]
  ring

/-- **C8 counterexample.** With `v0.quat = (1,0,0,0)` and
`v1.quat = (0,1,0,0)` the dot product is exactly zero, so `AddTriangle`
emits `v1.quat` unnegated and its dot product with `v0.quat` is zero — not
positive, refuting the claim that the emitted quaternion of the second and
third vertices always has positive dot product with `v0.quat`. -/
theorem addTriangle_positive_dot_cex :
    addTriangleNormquats ⟨1, 0, 0, 0⟩ ⟨0, 1, 0, 0⟩ ⟨0, 1, 0, 0⟩ =
      [⟨1, 0, 0, 0⟩, ⟨0, 1, 0, 0⟩, ⟨0, 1, 0, 0⟩] ∧
    ¬ 0 < Quat.dot ⟨1, 0, 0, 0⟩
        (hardwareVertexNormquat ⟨0, 1, 0, 0⟩ (areQuaternionsOpposite ⟨1, 0, 0, 0⟩ ⟨0, 1, 0, 0⟩)) := by
  constructor
  · norm_num [addTriangleNormquats, hardwareVertexNormquat, areQuaternionsOpposite, Quat.dot]
  · norm_num [hardwareVertexNormquat, areQuaternionsOpposite, Quat.dot]

/-- **C8 (amended).** For every `AddTriangle(v0, v1, v2)`, the emitted
records store `v1`'s and `v2`'s quaternion negated exactly when the dot
product of that vertex's quaternion with `v0`'s quaternion is negative, so
the emitted quaternion of each of the second and third vertices has
*nonnegative* dot product with `v0.quat`. -/
theorem addTriangle_quaternion_flip (q0 q1 q2 : Quat) :
    addTriangleNormquats q0 q1 q2 =
      [q0, if Quat.dot q0 q1 < 0 then q1.negate else q1,
           if Quat.dot q0 q2 < 0 then q2.negate else q2] ∧
    0 ≤ Quat.dot q0 ((addTriangleNormquats q0 q1 q2).get ⟨1, by simp [addTriangleNormquats]⟩) ∧
    0 ≤ Quat.dot q0 ((addTriangleNormquats q0 q1 q2).get ⟨2, by simp [addTriangleNormquats]⟩) := by
  have flip : ∀ q : Quat, 0 ≤ Quat.dot q0 (hardwareVertexNormquat q (areQuaternionsOpposite q0 q)) := by
    intro q
    by_cases h : Quat.dot q0 q < 0
    · simp [hardwareVertexNormquat, areQuaternionsOpposite, h, Quat.dot_negate]
      linarith
    · simp [hardwareVertexNormquat, areQuaternionsOpposite, h]
      linarith
  refine ⟨?_, flip q1, flip q2⟩
  simp only [addTriangleNormquats, hardwareVertexNormquat, areQuaternionsOpposite]
  by_cases h1 : Quat.dot q0 q1 < 0 <;> by_cases h2 : Quat.dot q0 q2 < 0 <;>
    simp [h1, h2]



/-! ## Register mirror: uniform value updates (`SyncFogColor`, `SyncTevConstColor`)

Embeds `rasterizer_accelerated.cpp` lines 14–18 (`ColorRGBA8`) and the two
uniform-value-update handlers cited by the spec: `SyncFogColor`
(lines 672–680) and `SyncTevConstColor` (lines 725–735).  Colors are exact
rationals; equality of two `ColorRGBA8` results corresponds exactly to
equality of the underlying bytes in the float32 source. -/

/-- A three-component color. -/
structure Vec3Q where
  x : ℚ
  y : ℚ
  z : ℚ
deriving DecidableEq, Repr

/-- A four-component color. -/
structure Vec4Q where
  x : ℚ
  y : ℚ
  z : ℚ
  w : ℚ
deriving DecidableEq, Repr

/-- `ColorRGBA8` (lines 14–18): unpack a `u32` into four byte channels,
each divided by 255. -/
def colorRGBA8 (color : Nat) : Vec4Q :=
  ⟨(((color >>> 0) % 256 : Nat) : ℚ) / 255, (((color >>> 8) % 256 : Nat) : ℚ) / 255,
   (((color >>> 16) % 256 : Nat) : ℚ) / 255, (((color >>> 24) % 256 : Nat) : ℚ) / 255⟩

/-- The part of `uniform_block_data` touched by the two embedded handlers:
the `fog_color` and `const_color` shadows plus the `dirty` flag. -/
structure UniformBlockData where
  fog_color : Vec3Q
  const_color : Fin 6 → Vec4Q
  dirty : Bool

/-- `RasterizerAccelerated::SyncFogColor` (lines 672–680): copy the fog
color registers (each channel divided by 255) into the shadow and set
`dirty` — unconditionally. -/
def syncFogColor (r g b : Nat) (u : UniformBlockData) : UniformBlockData :=
  { u with
    fog_color := ⟨(r : ℚ) / 255, (g : ℚ) / 255, (b : ℚ) / 255⟩
    dirty := true }

/-- `RasterizerAccelerated::SyncTevConstColor` (lines 725–735): compute the
stage's const color; if it equals the shadowed value, return unchanged,
else copy it into the shadow and set `dirty`. -/
def syncTevConstColor (stage : Fin 6) (const_color : Nat) (u : UniformBlockData) :
    UniformBlockData :=
  let c := colorRGBA8 const_color
  if c = u.const_color stage then u
  else
    { u with
      const_color := fun i => if i = stage then c else u.const_color i
      dirty := true }

/-- A concrete `uniform_block_data` whose fog shadow already equals the
value the fog registers `(255, 255, 255)` map to, with `dirty` clear. -/
def ubdFogWhite : UniformBlockData :=
  ⟨⟨1, 1, 1⟩, fun _ => ⟨0, 0, 0, 0⟩, false⟩

/-- **C5 counterexample.** Writing fog color `(255,255,255)` when the
shadowed fog color is already `(1,1,1)` leaves the shadowed value unchanged
but still sets `dirty` (`SyncFogColor` sets it unconditionally), refuting
"sets the dirty flag if and only if the copied value differs". -/
theorem syncFogColor_dirty_cex :
    (syncFogColor 255 255 255 ubdFogWhite).fog_color = ubdFogWhite.fog_color ∧
    ubdFogWhite.dirty = false ∧
    (syncFogColor 255 255 255 ubdFogWhite).dirty = true := by
  refine ⟨?_, rfl, rfl⟩
  show (⟨(255 : ℚ) / 255, (255 : ℚ) / 255, (255 : ℚ) / 255⟩ : Vec3Q) = ⟨1, 1, 1⟩
  norm_num

/-- **C5 (amended).** `SyncTevConstColor` copies the new value into the
shadow and sets `dirty` exactly when the copied value differs from the
previously shadowed value (leaving the state unchanged otherwise), while
`SyncFogColor` copies the new value and sets `dirty` unconditionally, even
when the copied value equals the previously shadowed one. -/
theorem uniform_value_update_dirty (stage : Fin 6) (cc r g b : Nat) (u : UniformBlockData) :
    ((syncTevConstColor stage cc u).const_color stage = colorRGBA8 cc ∧
      (∀ i, i ≠ stage → (syncTevConstColor stage cc u).const_color i = u.const_color i) ∧
      (syncTevConstColor stage cc u).dirty =
        (u.dirty || decide (colorRGBA8 cc ≠ u.const_color stage)) ∧
      (colorRGBA8 cc = u.const_color stage → syncTevConstColor stage cc u = u)) ∧
    ((syncFogColor r g b u).fog_color = ⟨(r : ℚ) / 255, (g : ℚ) / 255, (b : ℚ) / 255⟩ ∧
      (syncFogColor r g b u).dirty = true) := by
  refine ⟨⟨?_, ?_, ?_, ?_⟩, rfl, rfl⟩
  · by_cases h : colorRGBA8 cc = u.const_color stage
    · simp [syncTevConstColor, h]
    · simp [syncTevConstColor, h]
  · intro i hi
    by_cases h : colorRGBA8 cc = u.const_color stage
    · simp [syncTevConstColor, h]
    · simp [syncTevConstColor, h, hi]
  · by_cases h : colorRGBA8 cc = u.const_color stage
    · simp [syncTevConstColor, h]
    · simp [syncTevConstColor, h]
  · intro h
    simp [syncTevConstColor, h]



/-! ## Vertex array analysis (`AnalyzeVertexArray`)

Embeds `rasterizer_accelerated.cpp` lines 183–222.  `u32` arithmetic is
modelled as `Nat` with explicit `% 2^32` where the source can wrap.  For an
indexed draw the already-decoded index values read from guest memory are
passed in as a list (the 8/16-bit loads and the flush of the index region
before reading are outside the scope of the claims). -/

/-- `2^32`, the modulus of `u32` arithmetic. -/
def u32Mod : Nat := 2 ^ 32

/-- Modelled from the spec: `Common::AlignUp` (from `common/alignment.h`,
which is not under src/) rounds `value` up to the next multiple of
`size`. -/
def alignUp (value size : Nat) : Nat := (value + size - 1) / size * size

/-- One entry of `vertex_attributes.attribute_loaders`, restricted to the
fields `AnalyzeVertexArray` reads. -/
structure AttributeLoader where
  byte_count : Nat
  component_count : Nat
deriving DecidableEq, Repr

/-- `RasterizerAccelerated::VertexArrayInfo`. -/
structure VertexArrayInfo where
  vertex_min : Nat
  vertex_max : Nat
  vs_input_size : Nat
deriving DecidableEq, Repr

/-- `u32` subtraction of 1 followed by reduction, for a value already
reduced mod `2^32`. -/
def u32Pred (a : Nat) : Nat := (a + (u32Mod - 1)) % u32Mod

/-- `RasterizerAccelerated::AnalyzeVertexArray` (lines 183–222). -/
def analyzeVertexArray (is_indexed : Bool) (indices : List Nat)
    (vertex_offset num_vertices : Nat) (loaders : List AttributeLoader)
    (stride_alignment : Nat) : VertexArrayInfo :=
  let mm : Nat × Nat :=
    if is_indexed then
      indices.foldl (fun mm v => (min mm.1 v, max mm.2 v)) (0xFFFF, 0)
    else
      (vertex_offset % u32Mod, u32Pred ((vertex_offset + num_vertices) % u32Mod))
  let vertex_num := ((mm.2 + u32Mod - mm.1) % u32Mod + 1) % u32Mod
  let vs_input_size := loaders.foldl
    (fun acc loader =>
      if loader.component_count ≠ 0 then
        (acc + alignUp (alignUp loader.byte_count stride_alignment * vertex_num % u32Mod) 4
            % u32Mod) % u32Mod
      else acc) 0
  ⟨mm.1, mm.2, vs_input_size⟩

/-- Folding modular accumulation of `term` over the loaders with nonzero
component count equals the modular sum over the filtered list. -/
lemma loaders_fold_sum (term : AttributeLoader → Nat) :
    ∀ (l : List AttributeLoader) (acc : Nat), acc < u32Mod →
      l.foldl (fun acc loader =>
          if loader.component_count ≠ 0 then (acc + term loader % u32Mod) % u32Mod else acc) acc =
        (acc + ((l.filter fun loader => loader.component_count ≠ 0).map
          (fun loader => term loader % u32Mod)).sum) % u32Mod := by
  intro l
  induction l with
  | nil =>
    intro acc hacc
    simp [Nat.mod_eq_of_lt hacc]
  | cons a l ih =>
    intro acc hacc
    by_cases ha : a.component_count ≠ 0
    · have hlt : (acc + term a % u32Mod) % u32Mod < u32Mod :=
        Nat.mod_lt _ (by simp [u32Mod])
      rw [List.foldl_cons, if_pos ha, ih _ hlt, List.filter_cons, if_pos (by simpa using ha),
        List.map_cons, List.sum_cons]
      simp only [u32Mod] at *
      omega
    · rw [List.foldl_cons, if_neg ha, ih _ hacc, List.filter_cons, if_neg (by simpa using ha)]



/-- **C9.** For every non-indexed draw, `AnalyzeVertexArray` returns
`vertex_min = vertex_offset` and `vertex_max = vertex_offset + num_vertices
- 1` (u32 arithmetic), and returns `vs_input_size` equal to the sum, over
all attribute loaders with nonzero component count, of
`align_up(align_up(byte_count, stride_alignment) * (vertex_max - vertex_min
+ 1), 4)` (u32 arithmetic). -/
theorem analyzeVertexArray_non_indexed (indices : List Nat)
    (vertex_offset num_vertices : Nat) (loaders : List AttributeLoader)
    (stride_alignment : Nat) :
    (analyzeVertexArray false indices vertex_offset num_vertices loaders
        stride_alignment).vertex_min = vertex_offset % u32Mod ∧
    (analyzeVertexArray false indices vertex_offset num_vertices loaders
        stride_alignment).vertex_max = (vertex_offset + num_vertices + (u32Mod - 1)) % u32Mod ∧
    (analyzeVertexArray false indices vertex_offset num_vertices loaders
        stride_alignment).vs_input_size =
      ((loaders.filter fun loader => loader.component_count ≠ 0).map fun loader =>
        alignUp (alignUp loader.byte_count stride_alignment *
          ((((analyzeVertexArray false indices vertex_offset num_vertices loaders
                stride_alignment).vertex_max + u32Mod -
              (analyzeVertexArray false indices vertex_offset num_vertices loaders
                stride_alignment).vertex_min) % u32Mod + 1) % u32Mod) % u32Mod) 4
          % u32Mod).sum % u32Mod := by
  refine ⟨rfl, ?_, ?_⟩
  · show u32Pred ((vertex_offset + num_vertices) % u32Mod) =
      (vertex_offset + num_vertices + (u32Mod - 1)) % u32Mod
    simp only [u32Pred, u32Mod]
    omega
  · show (loaders.foldl _ 0) = _
    rw [loaders_fold_sum _ loaders 0 (by simp [u32Mod])]
    simp [analyzeVertexArray]



/-! ## Surface cache (`rasterizer_cache/rasterizer_cache.h`)

The boost `interval_set`/`interval_map` containers are modelled by lists of
half-open `Nat` intervals (with byte-membership semantics), surfaces by a
record of the fields the embedded operations read, and the backend runtime
by an output event list plus an abstract download writer for guest
memory. -/

/-- A half-open byte interval `[lo, hi)` (`SurfaceInterval`). -/
abbrev SIv := Nat × Nat

/-- `boost::icl::length`. -/
def SIv.len (i : SIv) : Nat := i.2 - i.1

/-- Two intervals share at least one byte. -/
def SIv.overlap (a b : SIv) : Bool := decide (max a.1 b.1 < min a.2 b.2)

/-- Interval intersection (`operator&`). -/
def SIv.inter (a b : SIv) : SIv := (max a.1 b.1, min a.2 b.2)

/-- The (up to two) nonempty pieces of `a` left after removing `j`. -/
def SIv.minus (a j : SIv) : List SIv :=
  [((a.1 : Nat), min a.2 j.1), (max a.1 j.2, a.2)].filter fun k => decide (k.1 < k.2)

/-- Byte-membership in an interval set (`boost::icl::interval_set`
modelled as a list of intervals). -/
def regionsCover (rs : List SIv) (x : Nat) : Bool :=
  rs.any fun i => decide (i.1 ≤ x ∧ x < i.2)

/-- `interval_set::erase`: remove `j` from every piece. -/
def regionsErase (rs : List SIv) (j : SIv) : List SIv :=
  rs.flatMap fun i => SIv.minus i j

/-- `A - B = ∅` on interval sets, i.e. every byte of `A` is covered by
`B` (decidably, by scanning the pieces of `A`). -/
def regionsSubset (A B : List SIv) : Bool :=
  A.all fun i => (List.range (SIv.len i)).all fun o => regionsCover B (i.1 + o)

/-- `SurfaceType`. -/
inductive SurfaceTypeM
  | Color
  | Texture
  | Depth
  | DepthStencil
  | Fill
  | Invalid
deriving DecidableEq, Repr

/-- One cached surface, restricted to the fields the embedded operations
read.  `sid` is the identity of the `std::shared_ptr`. -/
structure SurfaceM where
  sid : Nat
  addr : Nat
  size : Nat
  width : Nat
  height : Nat
  stride : Nat
  pixel_format : Nat
  res_scale : Nat
  is_tiled : Bool
  stype : SurfaceTypeM
  invalid_regions : List SIv
  registered : Bool
  watchers_valid : Bool
deriving DecidableEq, Repr

/-- `SurfaceParams`, restricted likewise. -/
structure SurfaceParamsM where
  addr : Nat
  size : Nat
  width : Nat
  height : Nat
  stride : Nat
  pixel_format : Nat
  res_scale : Nat
  is_tiled : Bool
  stype : SurfaceTypeM
deriving DecidableEq, Repr

/-- `GetInterval()`. -/
def SurfaceM.interval (s : SurfaceM) : SIv := (s.addr, s.addr + s.size)

/-- The `SurfaceParams` slice of a surface. -/
def SurfaceM.toParams (s : SurfaceM) : SurfaceParamsM :=
  ⟨s.addr, s.size, s.width, s.height, s.stride, s.pixel_format, s.res_scale, s.is_tiled, s.stype⟩

/-- `SurfaceParams::GetInterval()`. -/
def SurfaceParamsM.interval (p : SurfaceParamsM) : SIv := (p.addr, p.addr + p.size)

/-- Modelled from the spec (`SurfaceBase::IsRegionValid`, `surface_base.h`
is not under src/): the interval contains no byte of `invalid_regions`. -/
def SurfaceM.isRegionValid (s : SurfaceM) (iv : SIv) : Bool :=
  (List.range (SIv.len iv)).all fun o => !regionsCover s.invalid_regions (iv.1 + o)

/-- Modelled from the spec (`SurfaceBase::IsSurfaceFullyInvalid`,
`surface_base.h` is not under src/): every byte of the surface's interval
is invalid ("the surface has no salvageable data"). -/
def SurfaceM.isFullyInvalid (s : SurfaceM) : Bool :=
  (List.range s.size).all fun o => regionsCover s.invalid_regions (s.addr + o)

/-- Modelled from the spec (`SurfaceParams::ExactMatch`,
`surface_params.h` is not under src/): same `addr`, `width`, `height`,
`stride`, `pixel_format`, `is_tiled`. -/
def SurfaceM.exactMatch (s : SurfaceM) (p : SurfaceParamsM) : Bool :=
  decide (s.addr = p.addr ∧ s.width = p.width ∧ s.height = p.height ∧ s.stride = p.stride ∧
    s.pixel_format = p.pixel_format ∧ s.is_tiled = p.is_tiled)

/-- Modelled from the spec (`SurfaceParams::CanSubRect`,
`surface_params.h` is not under src/): the requested region fits inside
the candidate, with compatible tiling and format. -/
def SurfaceM.canSubRect (s : SurfaceM) (p : SurfaceParamsM) : Bool :=
  decide (s.pixel_format = p.pixel_format ∧ s.is_tiled = p.is_tiled ∧ s.addr ≤ p.addr ∧
    p.addr + p.size ≤ s.addr + s.size)

/-- Modelled from the spec (`SurfaceParams::CanExpand`,
`surface_params.h` is not under src/): the candidate shares format, tiling
and stride with the request and has a non-empty interval intersection. -/
def SurfaceM.canExpand (s : SurfaceM) (p : SurfaceParamsM) : Bool :=
  decide (s.pixel_format = p.pixel_format ∧ s.is_tiled = p.is_tiled ∧ s.stride = p.stride) &&
    SIv.overlap s.interval p.interval

/-- Modelled from the spec (`SurfaceParams::CanTexCopy`,
`surface_params.h` is not under src/): the candidate matches a guest
"texture copy" display transfer: the requested byte range lies inside the
candidate and the format width matches. -/
def SurfaceM.canTexCopy (s : SurfaceM) (p : SurfaceParamsM) : Bool :=
  decide (s.pixel_format = p.pixel_format ∧ s.addr ≤ p.addr ∧ p.addr + p.size ≤ s.addr + s.size)

/-- Modelled from the spec (`SurfaceBase::GetCopyableInterval`,
`surface_base.h` is not under src/): the first contiguous sub-interval of
the requested interval (clipped to the surface) whose bytes are all valid
on the candidate. -/
def SurfaceM.getCopyableInterval (s : SurfaceM) (iv : SIv) : SIv :=
  let lo := max s.addr iv.1
  let hi := min (s.addr + s.size) iv.2
  let valid := fun x => !regionsCover s.invalid_regions x
  match (List.range (hi - lo)).find? (fun o => valid (lo + o)) with
  | none => (lo, lo)
  | some o =>
    let st := lo + o
    (st, st + ((List.range (hi - st)).takeWhile fun k => valid (st + k)).length)



/-- `MatchFlags` as a set of booleans. -/
structure MatchFlagsM where
  invalid : Bool := false
  exact : Bool := false
  subrect : Bool := false
  copy : Bool := false
  expand : Bool := false
  texcopy : Bool := false
deriving DecidableEq, Repr

/-- `ScaleMatch`. -/
inductive ScaleMatchM
  | Exact
  | Upscale
  | Ignore
deriving DecidableEq, Repr

/-- A candidate's comparison key: `res_scale`, validity, matched interval
length. -/
abbrev CandKey := Nat × Bool × Nat

/-- The running best of `FindMatch` (lines 187–190): matched surface id,
`match_valid`, `match_scale`, and the length of `match_interval`. -/
structure MatchState where
  surface : Option Nat
  valid : Bool
  scale : Nat
  ilen : Nat
deriving DecidableEq, Repr

/-- `FindMatch`'s initial running best. -/
def initMatch : MatchState := ⟨none, false, 0, 0⟩

def MatchState.key (st : MatchState) : CandKey := (st.scale, st.valid, st.ilen)

/-- Strict lexicographic "candidate beats running best": larger
`res_scale`, then valid over invalid, then longer matched interval — the
update cascade of lines 229–245. -/
def candGT (c : CandKey) (m : CandKey) : Prop :=
  m.1 < c.1 ∨ (c.1 = m.1 ∧ ((c.2.1 = true ∧ m.2.1 = false) ∨ (c.2.1 = m.2.1 ∧ m.2.2 < c.2.2)))

instance (c m : CandKey) : Decidable (candGT c m) := by
  unfold candGT; infer_instance

/-- The `UpdateMatch`-or-skip cascade of `IsMatch_Helper`
(lines 221–245): replace the running best exactly when the candidate is
strictly greater in the lexicographic order. -/
def applyCand (st : MatchState) (sid : Nat) (c : CandKey) : MatchState :=
  if c.1 > st.scale then ⟨some sid, c.2.1, c.1, c.2.2⟩
  else if c.1 < st.scale then st
  else if c.2.1 && !st.valid then ⟨some sid, c.2.1, c.1, c.2.2⟩
  else if c.2.1 != st.valid then st
  else if c.2.2 > st.ilen then ⟨some sid, c.2.1, c.1, c.2.2⟩
  else st

/-- The candidates one surface contributes, in the order the five
`IsMatch_Helper` invocations run (lines 247–266), after the validity
filter (line 203), each helper's match function, and the scale filter
(lines 217–219). -/
def surfCands (flags : MatchFlagsM) (p : SurfaceParamsM) (scaleType : ScaleMatchM)
    (validate : Option SIv) (s : SurfaceM) : List CandKey :=
  let res_scale_matched := match scaleType with
    | ScaleMatchM.Exact => decide (p.res_scale = s.res_scale)
    | _ => decide (p.res_scale ≤ s.res_scale)
  let is_valid := if flags.copy then true
    else s.isRegionValid (validate.getD p.interval)
  if !flags.invalid && !is_valid then []
  else
    let skipScale := !res_scale_matched && decide (scaleType ≠ ScaleMatchM.Ignore) &&
      decide (s.stype ≠ SurfaceTypeM.Fill)
    let copyPair : Bool × SIv :=
      let copy_interval := s.getCopyableInterval
        (SIv.inter (validate.getD p.interval) (validate.getD p.interval))
      (decide (SIv.len (SIv.inter copy_interval (validate.getD p.interval)) ≠ 0), copy_interval)
    let entries : List (Bool × Bool × SIv) :=
      [(flags.exact, s.exactMatch p, s.interval),
       (flags.subrect, s.canSubRect p, s.interval),
       (flags.copy, copyPair.1, copyPair.2),
       (flags.expand, s.canExpand p, s.interval),
       (flags.texcopy, s.canTexCopy p, s.interval)]
    (entries.filter fun e => e.1 && e.2.1 && !skipScale).map
      fun e => (s.res_scale, is_valid, SIv.len e.2.2)

/-- Surfaces visited by `RangeFromInterval(surface_cache, iv)`: the
registered surfaces whose interval overlaps `iv`. -/
def cacheSurfacesInRange (surfaces : List SurfaceM) (iv : SIv) : List SurfaceM :=
  surfaces.filter fun s => s.registered && SIv.overlap s.interval iv

/-- `RasterizerCache::FindMatch` (lines 183–270): fold every candidate of
every overlapping registered surface through the lexicographic update
cascade. -/
def findMatch (flags : MatchFlagsM) (p : SurfaceParamsM) (scaleType : ScaleMatchM)
    (validate : Option SIv) (surfaces : List SurfaceM) : MatchState :=
  (cacheSurfacesInRange surfaces p.interval).foldl
    (fun st s => (surfCands flags p scaleType validate s).foldl
      (fun st c => applyCand st s.sid c) st)
    initMatch

lemma candGT_trans {a b c : CandKey} (hab : candGT a b) (hbc : candGT b c) : candGT a c := by
  obtain ⟨a1, a2, a3⟩ := a
  obtain ⟨b1, b2, b3⟩ := b
  obtain ⟨c1, c2, c3⟩ := c
  simp only [candGT] at *
  rcases hab with h | ⟨h1, h⟩ <;> rcases hbc with g | ⟨g1, g⟩
  · exact Or.inl (by omega)
  · exact Or.inl (by omega)
  · exact Or.inl (by omega)
  · refine Or.inr ⟨by omega, ?_⟩
    rcases h with ⟨hv1, hv2⟩ | ⟨hv, hl⟩ <;> rcases g with ⟨gv1, gv2⟩ | ⟨gv, gl⟩
    · simp_all
    · exact Or.inl ⟨hv1, by simp_all⟩
    · exact Or.inl ⟨by simp_all, gv2⟩
    · exact Or.inr ⟨by simp_all, by omega⟩

lemma candGT_irrefl (a : CandKey) : ¬ candGT a a := by
  obtain ⟨a1, a2, a3⟩ := a
  simp only [candGT]
  rintro (h | ⟨h1, ⟨hv1, hv2⟩ | ⟨hv, hl⟩⟩) <;> simp_all

/-- `applyCand` replaces the running best exactly when the candidate is
strictly greater. -/
lemma applyCand_eq (st : MatchState) (sid : Nat) (c : CandKey) :
    applyCand st sid c = if candGT c st.key then ⟨some sid, c.2.1, c.1, c.2.2⟩ else st := by
  obtain ⟨c1, c2, c3⟩ := c
  simp only [applyCand, candGT, MatchState.key]
  rcases Nat.lt_trichotomy st.scale c1 with h | h | h
  · rw [if_pos h, if_pos (Or.inl h)]
  · rw [if_neg (by omega), if_neg (by omega)]
    cases hc2 : c2 <;> cases hstv : st.valid <;>
      simp [hstv, h, Nat.lt_irrefl]
  · rw [if_neg (by omega), if_pos h, if_neg (by omega)]



/-- Folding `applyCand` never produces a state beaten by a candidate it has
already processed. -/
lemma foldl_applyCand_maximal :
    ∀ (cands : List (Nat × CandKey)) (st : MatchState),
      (∀ c ∈ cands,
        ¬ candGT c.2 ((cands.foldl (fun st c => applyCand st c.1 c.2) st).key)) ∧
      (∀ c : CandKey, ¬ candGT c st.key →
        ¬ candGT c ((cands.foldl (fun st c => applyCand st c.1 c.2) st).key)) := by
  intro cands
  induction cands with
  | nil => exact fun st => ⟨fun c hc => absurd hc (List.not_mem_nil c), fun c hc => hc⟩
  | cons a l ih =>
    intro st
    simp only [List.foldl_cons]
    constructor
    · intro c hc
      rcases List.mem_cons.mp hc with hhead | hmem
      · -- the head candidate does not beat the state right after it was applied
        subst hhead
        apply (ih (applyCand st c.1 c.2)).2
        rw [applyCand_eq]
        split
        · exact candGT_irrefl c.2
        · assumption
      · exact (ih (applyCand st a.1 a.2)).1 c hmem
    · intro c hc
      apply (ih (applyCand st a.1 a.2)).2
      rw [applyCand_eq]
      split
      · intro hca
        exact hc (candGT_trans hca (by assumption))
      · exact hc

/-- **C2.** For every cache state and request, the surface returned by
`FindMatch` is maximal among all candidates passing the flag, scale and
validity filters under the strict lexicographic order (larger `res_scale`,
then fully-valid over partially-valid, then longer matched interval): no
candidate strictly greater in this order than the returned running best is
passed over. -/
theorem findMatch_maximal (flags : MatchFlagsM) (p : SurfaceParamsM)
    (scaleType : ScaleMatchM) (validate : Option SIv) (surfaces : List SurfaceM)
    (s : SurfaceM) (c : CandKey)
    (hs : s ∈ cacheSurfacesInRange surfaces p.interval)
    (hc : c ∈ surfCands flags p scaleType validate s) :
    ¬ candGT c (findMatch flags p scaleType validate surfaces).key := by
  classical
  have key : ∀ (ss : List SurfaceM) (st : MatchState),
      (∀ t ∈ ss, ∀ d ∈ surfCands flags p scaleType validate t,
        ¬ candGT d ((ss.foldl
          (fun st t => (surfCands flags p scaleType validate t).foldl
            (fun st d => applyCand st t.sid d) st) st).key)) ∧
      (∀ d : CandKey, ¬ candGT d st.key →
        ¬ candGT d ((ss.foldl
          (fun st t => (surfCands flags p scaleType validate t).foldl
            (fun st d => applyCand st t.sid d) st) st).key)) := by
    intro ss
    induction ss with
    | nil => exact fun st => ⟨fun t ht => absurd ht (List.not_mem_nil t), fun d hd => hd⟩
    | cons t l ih =>
      intro st
      simp only [List.foldl_cons]
      have inner := foldl_applyCand_maximal
        ((surfCands flags p scaleType validate t).map fun d => (t.sid, d))
      have hfold : ((surfCands flags p scaleType validate t).map
            fun d => (t.sid, d)).foldl (fun st c => applyCand st c.1 c.2) st =
          (surfCands flags p scaleType validate t).foldl
            (fun st d => applyCand st t.sid d) st := by
        rw [List.foldl_map]
      constructor
      · intro u hu d hd
        rcases List.mem_cons.mp hu with hhead | hmem
        · subst hhead
          apply (ih _).2
          have := (inner st).1 (u.sid, d) (List.mem_map_of_mem _ hd)
          rwa [hfold] at this
        · exact (ih _).1 u hmem d hd
      · intro d hd
        apply (ih _).2
        have := (inner st).2 d hd
        rwa [hfold] at this
  exact (key (cacheSurfacesInRange surfaces p.interval) initMatch).1 s hs c hc



/-- A concrete request: 4×4 RGBA-like surface at address 0, scale 1. -/
def reqParamsW : SurfaceParamsM := ⟨0, 16, 4, 4, 4, 0, 1, false, SurfaceTypeM.Color⟩

/-- A fully-valid exact-size candidate at scale 1. -/
def surfExactW : SurfaceM := ⟨1, 0, 16, 4, 4, 4, 0, 1, false, SurfaceTypeM.Color, [], true, true⟩

/-- A fully-valid containing candidate at scale 2 (lexicographically
greater). -/
def surfBigW : SurfaceM := ⟨2, 0, 32, 4, 8, 4, 0, 2, false, SurfaceTypeM.Color, [], true, true⟩

/-- Witness for `findMatch_maximal`: in a cache holding both candidates,
the scale-1 exact candidate passes the filters, and it does not beat the
returned running best (the scale-2 surface wins). -/
theorem findMatch_maximal_witness :
    surfExactW ∈ cacheSurfacesInRange [surfExactW, surfBigW] reqParamsW.interval ∧
    ((1 : Nat), true, (16 : Nat)) ∈
      surfCands ⟨true, false, true, false, false, false⟩ reqParamsW ScaleMatchM.Upscale none
        surfExactW ∧
    (findMatch ⟨true, false, true, false, false, false⟩ reqParamsW ScaleMatchM.Upscale none
        [surfExactW, surfBigW]).surface = some 2 ∧
    ¬ candGT ((1 : Nat), true, (16 : Nat))
      (findMatch ⟨true, false, true, false, false, false⟩ reqParamsW ScaleMatchM.Upscale none
        [surfExactW, surfBigW]).key :=
  ⟨by decide, by decide, by decide,
    findMatch_maximal ⟨true, false, true, false, false, false⟩ reqParamsW ScaleMatchM.Upscale
      none [surfExactW, surfBigW] surfExactW ((1 : Nat), true, (16 : Nat))
      (by decide) (by decide)⟩



/-- Backend/rasterizer interactions of the cache, in emission order. -/
inductive CEvent
  | download (sid : Nat) (iv : SIv)
  | fillWrite (sid : Nat) (iv : SIv)
  | finish
  | flushCall (sid : Nat) (iv : SIv)
  | unregisterEv (sid : Nat)
  | duplicateEv (src dst : Nat)
  | assertFail
deriving DecidableEq, Repr

/-- The cache state: the surfaces (`surface_cache` membership is the
`registered` flag), the `dirty_regions` interval map as a list of
(interval, owner-sid) pieces, the `remove_surfaces` staging set, and guest
memory. -/
structure CacheState where
  surfaces : List SurfaceM
  dirty : List (SIv × Nat)
  remove_surfaces : List Nat
  mem : Nat → Nat

/-- Look a surface up by id. -/
def getSurf (st : CacheState) (sid : Nat) : Option SurfaceM :=
  st.surfaces.find? fun s => s.sid = sid

/-- Update the surface with the given id in place. -/
def updSurf (st : CacheState) (sid : Nat) (f : SurfaceM → SurfaceM) : CacheState :=
  { st with surfaces := st.surfaces.map fun s => if s.sid = sid then f s else s }

/-- Subtract one interval from every piece of the dirty map
(`dirty_regions -= …`, also the splitting part of `set`/`erase`). -/
def dirtySub (d : List (SIv × Nat)) (j : SIv) : List (SIv × Nat) :=
  d.flatMap fun pr => (SIv.minus pr.1 j).map fun i => (i, pr.2)

/-- The abstract writer a queued download (or fill splat) applies to guest
memory: old memory, (surface, interval) ↦ new memory. -/
abbrev DlWriter := (Nat → Nat) → Nat × SIv → Nat → Nat

/-- `RasterizerCache::FlushRegion` (lines 1072–1118): iterate the dirty
pieces overlapping the request (expanding small CPU-originated requests to
the whole piece, else clipping), skip pieces of other owners when a
`flush_surface` is given, splat fill surfaces immediately, queue downloads
for the rest, issue one `Finish` and drain the queue when it is nonempty,
and subtract the flushed intervals from `dirty_regions`. -/
def flushRegion (dl : DlWriter) (st : CacheState) (addr size : Nat)
    (flush_surface : Option Nat) : CacheState × List CEvent :=
  if size = 0 then (st, [])
  else
    let fi : SIv := (addr, addr + size)
    let pieces := st.dirty.filter fun pr => SIv.overlap pr.1 fi
    let work := pieces.filterMap fun pr =>
      let iv := if size ≤ 8 then pr.1 else SIv.inter pr.1 fi
      match flush_surface with
      | some t => if pr.2 = t then some (pr.2, iv) else none
      | none => some (pr.2, iv)
    let isFillSid := fun sid => match getSurf st sid with
      | some s => decide (s.stype = SurfaceTypeM.Fill)
      | none => false
    let queued := work.filter fun w => !isFillSid w.1
    let events :=
      (work.map fun w =>
        if isFillSid w.1 then CEvent.fillWrite w.1 w.2 else CEvent.download w.1 w.2) ++
      (if queued.isEmpty then [] else [CEvent.finish])
    let flushed := work.map fun w => w.2
    { st with
      dirty := flushed.foldl dirtySub st.dirty
      mem := ((work.filter fun w => isFillSid w.1) ++ queued).foldl dl st.mem }
    |> fun st2 => (st2, events)

lemma mem_SIv_minus {a j q : SIv} (h : q ∈ SIv.minus a j) :
    a.1 ≤ q.1 ∧ q.2 ≤ a.2 ∧ q.1 < q.2 ∧ SIv.overlap q j = false := by
  simp only [SIv.minus, List.mem_filter, List.mem_cons, List.not_mem_nil, or_false,
    decide_eq_true_eq] at h
  obtain ⟨hq, hlt⟩ := h
  rcases hq with rfl | rfl <;>
    simp only [SIv.overlap, decide_eq_false_iff_not, not_lt] <;>
    constructor <;> omega

lemma mem_dirtySub {d : List (SIv × Nat)} {j : SIv} {q : SIv × Nat}
    (h : q ∈ dirtySub d j) :
    ∃ p ∈ d, q.2 = p.2 ∧ p.1.1 ≤ q.1.1 ∧ q.1.2 ≤ p.1.2 ∧ q.1.1 < q.1.2 ∧
      SIv.overlap q.1 j = false := by
  simp only [dirtySub, List.mem_flatMap, List.mem_map] at h
  obtain ⟨p, hp, i, hi, hq⟩ := h
  obtain ⟨h1, h2, h3, h4⟩ := mem_SIv_minus hi
  exact ⟨p, hp, by rw [← hq], by rw [← hq]; exact h1, by rw [← hq]; exact h2,
    by rw [← hq]; exact h3, by rw [← hq]; exact h4⟩

lemma mem_foldl_dirtySub {js : List SIv} :
    ∀ {d : List (SIv × Nat)} {q : SIv × Nat}, q ∈ js.foldl dirtySub d →
      (∃ p ∈ d, q.2 = p.2 ∧ p.1.1 ≤ q.1.1 ∧ q.1.2 ≤ p.1.2) ∧ (js ≠ [] → q.1.1 < q.1.2) ∧
        ∀ j ∈ js, SIv.overlap q.1 j = false := by
  induction js with
  | nil =>
    intro d q hq
    exact ⟨⟨q, hq, rfl, le_refl _, le_refl _⟩, fun h => absurd rfl h, fun j hj => absurd hj (List.not_mem_nil j)⟩
  | cons j js ih =>
    intro d q hq
    simp only [List.foldl_cons] at hq
    obtain ⟨⟨p, hp, hq2, hle1, hle2⟩, _, hall⟩ := ih hq
    obtain ⟨p0, hp0, hq20, hle10, hle20, hne, hov⟩ := mem_dirtySub hp
    refine ⟨⟨p0, hp0, hq2.trans hq20, by omega, by omega⟩, fun _ => ?_, ?_⟩
    · by_cases hjs : js = []
      · subst hjs
        simp only [List.foldl_nil] at hq
        obtain ⟨_, _, _, _, _, hne2, _⟩ := mem_dirtySub hq
        exact hne2
      · obtain ⟨_, hne2, _⟩ := ih hq
        exact hne2 hjs
    · intro j2 hj2
      rcases List.mem_cons.mp hj2 with rfl | hmem
      · -- q is inside a piece produced by subtracting j, so it avoids j
        simp only [SIv.overlap, decide_eq_false_iff_not, not_lt] at hov ⊢
        omega
      · exact hall j2 hmem



/-- After a flush with no target surface, no remaining dirty piece overlaps
the flushed interval. -/
lemma flushRegion_dirty_clear (dl : DlWriter) (st : CacheState) (addr size : Nat)
    (hsz : ¬ size = 0) :
    ∀ q ∈ (flushRegion dl st addr size none).1.dirty,
      SIv.overlap q.1 (addr, addr + size) = false := by
  intro q hq
  simp only [flushRegion, if_neg hsz] at hq
  obtain ⟨⟨p, hp, _, hle1, hle2⟩, hne, hall⟩ := mem_foldl_dirtySub hq
  by_cases hov : SIv.overlap p.1 (addr, addr + size) = true
  · -- the piece was visited: its flushed interval covers its overlap
    have hmem : p ∈ st.dirty.filter fun pr => SIv.overlap pr.1 (addr, addr + size) :=
      List.mem_filter.mpr ⟨hp, hov⟩
    set iv := if size ≤ 8 then p.1 else SIv.inter p.1 (addr, addr + size) with hiv
    have hwork : (p.2, iv) ∈
        (st.dirty.filter fun pr => SIv.overlap pr.1 (addr, addr + size)).filterMap
          (fun pr =>
            let iv := if size ≤ 8 then pr.1 else SIv.inter pr.1 (addr, addr + size)
            match (none : Option Nat) with
            | some t => if pr.2 = t then some (pr.2, iv) else none
            | none => some (pr.2, iv)) := by
      exact List.mem_filterMap.mpr ⟨p, hmem, rfl⟩
    have hflushed : iv ∈
        ((st.dirty.filter fun pr => SIv.overlap pr.1 (addr, addr + size)).filterMap
          (fun pr =>
            let iv := if size ≤ 8 then pr.1 else SIv.inter pr.1 (addr, addr + size)
            match (none : Option Nat) with
            | some t => if pr.2 = t then some (pr.2, iv) else none
            | none => some (pr.2, iv))).map (fun w => w.2) :=
      List.mem_map.mpr ⟨(p.2, iv), hwork, rfl⟩
    have hqiv := hall iv hflushed
    have hqne : q.1.1 < q.1.2 := hne (by
      intro hnil
      rw [hnil] at hflushed
      exact absurd hflushed (List.not_mem_nil iv))
    by_cases hsmall : size ≤ 8 <;>
      simp only [hiv, hsmall, if_true, if_false, ite_true, ite_false, SIv.overlap, SIv.inter,
        decide_eq_false_iff_not, not_lt, max_le_iff, le_min_iff, decide_eq_true_eq] at hqiv ⊢ <;>
      omega
  · -- the piece was never visited, and q lies inside it
    simp only [Bool.not_eq_true] at hov
    simp only [SIv.overlap, decide_eq_false_iff_not, not_lt] at hov ⊢
    omega

/-- **C6.** `FlushRegion` is idempotent: flushing the same region twice
yields the same cache state (dirty regions, surfaces, guest memory) as
flushing it once, and the second call performs no work at all — it queues
zero downloads and issues no backend `Finish` (its event list is empty). -/
theorem flushRegion_idempotent (dl : DlWriter) (st : CacheState) (addr size : Nat) :
    flushRegion dl (flushRegion dl st addr size none).1 addr size none =
      ((flushRegion dl st addr size none).1, []) := by
  by_cases hsz : size = 0
  · subst hsz
    rfl
  · have hcl := flushRegion_dirty_clear dl st addr size hsz
    have hpieces : (flushRegion dl st addr size none).1.dirty.filter
        (fun pr => SIv.overlap pr.1 (addr, addr + size)) = [] := by
      rw [List.filter_eq_nil_iff]
      intro pr hpr
      rw [hcl pr hpr]
      simp
    conv_lhs => rw [flushRegion]
    rw [if_neg hsz]
    simp only [hpieces]
    rfl



/-- `RasterizerCache::UnregisterSurface` (lines 1211–1222): a registered
surface is unregistered — its flag is cleared (removing it from
`surface_cache` iteration) and the page tracker is notified (the
`unregisterEv` event); a surface that is not registered is left alone. -/
def unregisterSurface (st : CacheState) (sid : Nat) : CacheState × List CEvent :=
  match getSurf st sid with
  | some s =>
    if s.registered then
      (updSurf st sid fun t => { t with registered := false }, [CEvent.unregisterEv sid])
    else (st, [])
  | none => (st, [])

/-- `RasterizerCache::DuplicateSurface` (lines 814–834): blit src into dest
(the `duplicateEv` event), transfer validity
(`dest.invalid := (dest.invalid − src.interval) + src.invalid`), and re-key
the dirty pieces owned by src that overlap src's interval so they point at
dest. -/
def duplicateSurface (st : CacheState) (src dst : Nat) : CacheState × List CEvent :=
  match getSurf st src with
  | none => (st, [CEvent.duplicateEv src dst])
  | some ss =>
    let st1 := updSurf st dst fun d =>
      { d with invalid_regions :=
          ss.invalid_regions ++ regionsErase d.invalid_regions ss.interval }
    let regions := (st1.dirty.filter fun pr =>
      SIv.overlap pr.1 ss.interval && pr.2 == src).map fun pr => pr.1
    ({ st1 with
        dirty := regions.foldl (fun d ivp => (ivp, dst) :: dirtySub d ivp) st1.dirty },
      [CEvent.duplicateEv src dst])

/-- `MatchFlags::SubRect | MatchFlags::Invalid` (line 1175). -/
def subrectInvalidFlags : MatchFlagsM := ⟨true, false, true, false, false, false⟩

/-- `MatchFlags::Expand | MatchFlags::Invalid`. -/
def expandInvalidFlags : MatchFlagsM := ⟨true, false, false, false, true, false⟩

/-- One iteration of the staged-surface removal loop of `InvalidateRegion`
(lines 1173–1186).  A staged surface equal to the owner: find the best
`SubRect|Invalid` match of the owner's params (the source asserts it
exists); duplicate the owner into it only when the owner's invalid bytes
are all contained in the match's invalid bytes, else `continue` without
unregistering.  Any other staged surface is simply unregistered. -/
def removalStep (region_owner : Option Nat) (acc : CacheState × List CEvent) (rid : Nat) :
    CacheState × List CEvent :=
  let (s0, evs) := acc
  if region_owner = some rid then
    match getSurf s0 rid with
    | none => (s0, evs ++ [CEvent.assertFail])
    | some ow =>
      let m := findMatch subrectInvalidFlags ow.toParams ScaleMatchM.Ignore none s0.surfaces
      match m.surface with
      | none => (s0, evs ++ [CEvent.assertFail])
      | some mid =>
        match getSurf s0 mid with
        | none => (s0, evs ++ [CEvent.assertFail])
        | some ms =>
          if regionsSubset ow.invalid_regions ms.invalid_regions then
            let (s1, e1) := duplicateSurface s0 rid mid
            let (s2, e2) := unregisterSurface s1 rid
            (s2, evs ++ e1 ++ e2)
          else (s0, evs)
  else
    let (s1, e1) := unregisterSurface s0 rid
    (s1, evs ++ e1)

/-- The staged-surface removal loop of `InvalidateRegion`
(lines 1173–1186). -/
def processRemovals (st : CacheState) (region_owner : Option Nat) (staged : List Nat) :
    CacheState × List CEvent :=
  staged.foldl (removalStep region_owner) (st, [])

/-- One iteration of the main loop of `InvalidateRegion`
(lines 1142–1166): skip the owner; for a CPU-originated small write
(`!region_owner && size <= 8`) flush the whole surface and stage it for
removal; otherwise extend the surface's `invalid_regions` by the
intersection, invalidate its watchers, and stage it when it became fully
invalid. -/
def invLoopStep (dl : DlWriter) (iv : SIv) (region_owner : Option Nat) (size : Nat)
    (acc : CacheState × List CEvent × List Nat) (sid : Nat) :
    CacheState × List CEvent × List Nat :=
  let (s0, evs, staged) := acc
  if region_owner = some sid then acc
  else
    match getSurf s0 sid with
    | none => acc
    | some cs =>
      if region_owner = none ∧ size ≤ 8 then
        let (s1, e1) := flushRegion dl s0 cs.addr cs.size (some sid)
        (s1, evs ++ CEvent.flushCall sid cs.interval :: e1,
          if sid ∈ staged then staged else staged ++ [sid])
      else
        let s1 := updSurf s0 sid fun t =>
          { t with invalid_regions := SIv.inter t.interval iv :: t.invalid_regions,
                   watchers_valid := false }
        match getSurf s1 sid with
        | some t2 =>
          (s1, evs,
            if t2.isFullyInvalid then (if sid ∈ staged then staged else staged ++ [sid])
            else staged)
        | none => (s1, evs, staged)

/-- `RasterizerCache::InvalidateRegion` (lines 1125–1189): erase the
interval from the owner's `invalid_regions`, run the main loop over the
registered surfaces intersecting the interval, then set (owner present) or
erase (CPU write) the interval in `dirty_regions`, and finally run the
staged-surface removal loop and clear `remove_surfaces`. -/
def invalidateRegion (dl : DlWriter) (st : CacheState) (addr size : Nat)
    (region_owner : Option Nat) : CacheState × List CEvent :=
  if size = 0 then (st, [])
  else
    let iv : SIv := (addr, addr + size)
    let st1 := match region_owner with
      | some o => updSurf st o fun s =>
          { s with invalid_regions := regionsErase s.invalid_regions iv }
      | none => st
    let loopSids := (cacheSurfacesInRange st1.surfaces iv).map fun s => s.sid
    let out := loopSids.foldl (invLoopStep dl iv region_owner size)
      (st1, [], st1.remove_surfaces)
    let st3 := match region_owner with
      | some o => { out.1 with dirty := (iv, o) :: dirtySub out.1.dirty iv }
      | none => { out.1 with dirty := dirtySub out.1.dirty iv }
    let rem := processRemovals st3 region_owner out.2.2
    ({ rem.1 with remove_surfaces := [] }, out.2.1 ++ rem.2)

/-- **C10.** With size zero, both `FlushRegion` and `InvalidateRegion`
return immediately: the cache state (surfaces, dirty regions, page
counters, guest memory) is unchanged and no backend work (downloads,
uploads, unregistrations) is performed. -/
theorem region_ops_size_zero_noop (dl : DlWriter) (st : CacheState) (addr : Nat)
    (flush_surface region_owner : Option Nat) :
    flushRegion dl st addr 0 flush_surface = (st, []) ∧
    invalidateRegion dl st addr 0 region_owner = (st, []) :=
  ⟨rfl, rfl⟩



/-! ### Frame lemmas for the cache operations -/

lemma flushRegion_surfaces (dl : DlWriter) (st : CacheState) (addr size : Nat)
    (t : Option Nat) : (flushRegion dl st addr size t).1.surfaces = st.surfaces := by
  by_cases h : size = 0 <;> simp [flushRegion, h]

lemma flushRegion_remove (dl : DlWriter) (st : CacheState) (addr size : Nat)
    (t : Option Nat) : (flushRegion dl st addr size t).1.remove_surfaces = st.remove_surfaces := by
  by_cases h : size = 0 <;> simp [flushRegion, h]

lemma getSurf_of_surfaces_eq {st st' : CacheState} (h : st.surfaces = st'.surfaces)
    (sid : Nat) : getSurf st sid = getSurf st' sid := by
  simp [getSurf, h]

lemma getSurf_mem {st : CacheState} {sid : Nat} {s : SurfaceM} (h : getSurf st sid = some s) :
    s ∈ st.surfaces ∧ s.sid = sid := by
  refine ⟨List.mem_of_find?_eq_some h, ?_⟩
  have := List.find?_some h
  simpa using this

lemma find?_map_upd_self (l : List SurfaceM) (sid : Nat) (f : SurfaceM → SurfaceM)
    (hf : ∀ s, (f s).sid = s.sid) :
    (l.map fun s => if s.sid = sid then f s else s).find? (fun s => s.sid = sid)
      = (l.find? (fun s => s.sid = sid)).map f := by
  induction l with
  | nil => rfl
  | cons s ss ih =>
    by_cases hs : s.sid = sid
    · rw [List.map_cons, if_pos hs, List.find?_cons, List.find?_cons,
        show (decide ((f s).sid = sid)) = true by simp [hf s, hs],
        show (decide (s.sid = sid)) = true by simp [hs]]
      rfl
    · rw [List.map_cons, if_neg hs, List.find?_cons, List.find?_cons,
        show (decide (s.sid = sid)) = false by simp [hs]]
      exact ih

lemma find?_map_upd_ne (l : List SurfaceM) (sid rid : Nat) (f : SurfaceM → SurfaceM)
    (hf : ∀ s, (f s).sid = s.sid) (h : rid ≠ sid) :
    (l.map fun s => if s.sid = sid then f s else s).find? (fun s => s.sid = rid)
      = l.find? (fun s => s.sid = rid) := by
  induction l with
  | nil => rfl
  | cons s ss ih =>
    by_cases hs : s.sid = sid
    · rw [List.map_cons, if_pos hs, List.find?_cons, List.find?_cons,
        show (decide ((f s).sid = rid)) = false by
          simp only [decide_eq_false_iff_not, hf s, hs]; omega,
        show (decide (s.sid = rid)) = false by
          simp only [decide_eq_false_iff_not, hs]; omega]
      exact ih
    · by_cases hr : s.sid = rid
      · rw [List.map_cons, if_neg hs, List.find?_cons, List.find?_cons,
          show (decide (s.sid = rid)) = true by simp [hr]]
      · rw [List.map_cons, if_neg hs, List.find?_cons, List.find?_cons,
          show (decide (s.sid = rid)) = false by simp [hr]]
        exact ih

lemma getSurf_updSurf_self (st : CacheState) (sid : Nat) (f : SurfaceM → SurfaceM)
    (hf : ∀ s, (f s).sid = s.sid) :
    getSurf (updSurf st sid f) sid = (getSurf st sid).map f :=
  find?_map_upd_self st.surfaces sid f hf

lemma getSurf_updSurf_ne (st : CacheState) (sid rid : Nat) (f : SurfaceM → SurfaceM)
    (hf : ∀ s, (f s).sid = s.sid) (h : rid ≠ sid) :
    getSurf (updSurf st sid f) rid = getSurf st rid :=
  find?_map_upd_ne st.surfaces sid rid f hf h



lemma unregisterSurface_frame (st : CacheState) (x : Nat) :
    (unregisterSurface st x).1.dirty = st.dirty ∧
    (unregisterSurface st x).1.mem = st.mem ∧
    (unregisterSurface st x).1.remove_surfaces = st.remove_surfaces := by
  unfold unregisterSurface
  cases h : getSurf st x with
  | none => exact ⟨rfl, rfl, rfl⟩
  | some s =>
    by_cases hr : s.registered <;> simp [hr, updSurf]

lemma unregisterSurface_self {st : CacheState} {x : Nat} {s : SurfaceM}
    (h : getSurf st x = some s) :
    (getSurf (unregisterSurface st x).1 x).map SurfaceM.registered = some false := by
  unfold unregisterSurface
  rw [h]
  dsimp only
  by_cases hr : s.registered
  · rw [if_pos hr]
    show (getSurf (updSurf st x fun t => { t with registered := false }) x).map
      SurfaceM.registered = some false
    rw [getSurf_updSurf_self st x (fun t => { t with registered := false }) fun t => rfl, h]
    rfl
  · rw [if_neg hr]
    show (getSurf st x).map _ = _
    rw [h]
    simpa using Bool.not_eq_true s.registered ▸ hr

lemma unregisterSurface_other {st : CacheState} {x rid : Nat} (h : rid ≠ x) :
    getSurf (unregisterSurface st x).1 rid = getSurf st rid := by
  unfold unregisterSurface
  cases hx : getSurf st x with
  | none => rfl
  | some s =>
    dsimp only
    by_cases hr : s.registered
    · rw [if_pos hr]
      exact getSurf_updSurf_ne _ _ _ _ (fun t => rfl) h
    · rw [if_neg hr]

lemma unregisterSurface_keeps_false {st : CacheState} {x rid : Nat}
    (h : (getSurf st rid).map SurfaceM.registered = some false) :
    (getSurf (unregisterSurface st x).1 rid).map SurfaceM.registered = some false := by
  by_cases hxr : rid = x
  · subst hxr
    cases hx : getSurf st rid with
    | none => rw [hx] at h; simp at h
    | some s => exact unregisterSurface_self hx
  · rw [unregisterSurface_other hxr]
    exact h

lemma unregisterSurface_presence {st : CacheState} {x rid : Nat} :
    (getSurf (unregisterSurface st x).1 rid).isSome = (getSurf st rid).isSome := by
  by_cases hxr : rid = x
  · subst hxr
    cases hx : getSurf st rid with
    | none =>
      unfold unregisterSurface
      rw [hx]
      dsimp only
      rw [hx]
    | some s =>
      have := unregisterSurface_self hx
      cases hfin : getSurf (unregisterSurface st rid).1 rid with
      | none => rw [hfin] at this; simp at this
      | some t => simp [hfin, hx]
  · rw [unregisterSurface_other hxr]

lemma removalStep_none (s : CacheState) (evs : List CEvent) (rid : Nat) :
    removalStep none (s, evs) rid =
      ((unregisterSurface s rid).1, evs ++ (unregisterSurface s rid).2) := by
  unfold removalStep
  dsimp only
  rw [if_neg (show ¬ (none : Option Nat) = some rid by simp)]



/-- The removal loop of a CPU-originated invalidation only unregisters:
dirty regions, guest memory, the staging list and previously accumulated
events are untouched. -/
lemma processRemovals_none_frame :
    ∀ (staged : List Nat) (s : CacheState) (evs : List CEvent),
      (staged.foldl (removalStep none) (s, evs)).1.dirty = s.dirty ∧
      (staged.foldl (removalStep none) (s, evs)).1.mem = s.mem ∧
      (staged.foldl (removalStep none) (s, evs)).1.remove_surfaces = s.remove_surfaces ∧
      ∀ e ∈ evs, e ∈ (staged.foldl (removalStep none) (s, evs)).2 := by
  intro staged
  induction staged with
  | nil => exact fun s evs => ⟨rfl, rfl, rfl, fun e he => he⟩
  | cons a l ih =>
    intro s evs
    rw [List.foldl_cons, removalStep_none]
    obtain ⟨hd, hm, hr⟩ := unregisterSurface_frame s a
    obtain ⟨ihd, ihm, ihr, ihe⟩ := ih (unregisterSurface s a).1 (evs ++ (unregisterSurface s a).2)
    exact ⟨ihd.trans hd, ihm.trans hm, ihr.trans hr,
      fun e he => ihe e (List.mem_append_left _ he)⟩

lemma processRemovals_none_keeps_false :
    ∀ (staged : List Nat) (s : CacheState) (evs : List CEvent) (rid : Nat),
      (getSurf s rid).map SurfaceM.registered = some false →
      (getSurf (staged.foldl (removalStep none) (s, evs)).1 rid).map SurfaceM.registered =
        some false := by
  intro staged
  induction staged with
  | nil => exact fun s evs rid h => h
  | cons a l ih =>
    intro s evs rid h
    rw [List.foldl_cons, removalStep_none]
    exact ih _ _ rid (unregisterSurface_keeps_false h)

/-- Every staged surface present in the cache ends the removal loop of a
CPU-originated invalidation unregistered. -/
lemma processRemovals_none_unregisters :
    ∀ (staged : List Nat) (s : CacheState) (evs : List CEvent) (rid : Nat),
      rid ∈ staged → (getSurf s rid).isSome = true →
      (getSurf (staged.foldl (removalStep none) (s, evs)).1 rid).map SurfaceM.registered =
        some false := by
  intro staged
  induction staged with
  | nil => intro s evs rid h; exact absurd h (List.not_mem_nil rid)
  | cons a l ih =>
    intro s evs rid hmem hsome
    rw [List.foldl_cons, removalStep_none]
    rcases List.mem_cons.mp hmem with rfl | hmem2
    · cases hx : getSurf s rid with
      | none => rw [hx] at hsome; simp at hsome
      | some t => exact processRemovals_none_keeps_false l _ _ rid (unregisterSurface_self hx)
    · apply ih _ _ rid hmem2
      rw [unregisterSurface_presence]
      exact hsome



lemma invLoopStep_none (dl : DlWriter) (iv : SIv) (size : Nat) (hsz : size ≤ 8)
    (s0 : CacheState) (evs : List CEvent) (staged : List Nat) (sid : Nat) :
    invLoopStep dl iv none size (s0, evs, staged) sid =
      match getSurf s0 sid with
      | none => (s0, evs, staged)
      | some cs =>
        ((flushRegion dl s0 cs.addr cs.size (some sid)).1,
         evs ++ CEvent.flushCall sid cs.interval ::
           (flushRegion dl s0 cs.addr cs.size (some sid)).2,
         if sid ∈ staged then staged else staged ++ [sid]) := by
  unfold invLoopStep
  dsimp only
  rw [if_neg (show ¬ (none : Option Nat) = some sid by simp)]
  cases h : getSurf s0 sid with
  | none => rfl
  | some cs =>
    dsimp only
    rw [if_pos ⟨rfl, hsz⟩]

/-- Through the main loop of a CPU-originated small-write invalidation:
surfaces and the staging baseline are preserved, events and staging only
grow, and every visited surface is flushed in full and staged. -/
lemma invLoop_none_fold (dl : DlWriter) (iv : SIv) (size : Nat) (hsz : size ≤ 8) :
    ∀ (sids : List Nat) (s0 : CacheState) (evs : List CEvent) (staged : List Nat),
      (sids.foldl (invLoopStep dl iv none size) (s0, evs, staged)).1.surfaces = s0.surfaces ∧
      (∀ e ∈ evs, e ∈ (sids.foldl (invLoopStep dl iv none size) (s0, evs, staged)).2.1) ∧
      (∀ x ∈ staged, x ∈ (sids.foldl (invLoopStep dl iv none size) (s0, evs, staged)).2.2) ∧
      (∀ sid ∈ sids, ∀ cs, getSurf s0 sid = some cs →
        CEvent.flushCall sid cs.interval ∈
            (sids.foldl (invLoopStep dl iv none size) (s0, evs, staged)).2.1 ∧
          sid ∈ (sids.foldl (invLoopStep dl iv none size) (s0, evs, staged)).2.2) := by
  intro sids
  induction sids with
  | nil =>
    intro s0 evs staged
    exact ⟨rfl, fun e he => he, fun x hx => hx,
      fun sid hsid => absurd hsid (List.not_mem_nil sid)⟩
  | cons a l ih =>
    intro s0 evs staged
    rw [List.foldl_cons, invLoopStep_none dl iv size hsz]
    cases h : getSurf s0 a with
    | none =>
      obtain ⟨ihs, ihe, ihst, ihall⟩ := ih s0 evs staged
      refine ⟨ihs, ihe, ihst, ?_⟩
      intro sid hsid cs hcs
      rcases List.mem_cons.mp hsid with rfl | hmem
      · rw [h] at hcs; cases hcs
      · exact ihall sid hmem cs hcs
    | some cs =>
      have hsurf : (flushRegion dl s0 cs.addr cs.size (some a)).1.surfaces = s0.surfaces :=
        flushRegion_surfaces dl s0 cs.addr cs.size (some a)
      obtain ⟨ihs, ihe, ihst, ihall⟩ := ih (flushRegion dl s0 cs.addr cs.size (some a)).1
        (evs ++ CEvent.flushCall a cs.interval ::
          (flushRegion dl s0 cs.addr cs.size (some a)).2)
        (if a ∈ staged then staged else staged ++ [a])
      refine ⟨ihs.trans hsurf, ?_, ?_, ?_⟩
      · intro e he
        exact ihe e (List.mem_append_left _ he)
      · intro x hx
        apply ihst
        by_cases hax : a ∈ staged
        · rw [if_pos hax]; exact hx
        · rw [if_neg hax]; exact List.mem_append_left _ hx
      · intro sid hsid cs2 hcs2
        rcases List.mem_cons.mp hsid with rfl | hmem
        · rw [h] at hcs2
          injection hcs2 with hcs2
          subst hcs2
          constructor
          · exact ihe _ (List.mem_append_right _ (List.mem_cons_self _ _))
          · apply ihst
            by_cases hax : sid ∈ staged
            · rw [if_pos hax]; exact hax
            · rw [if_neg hax]
              exact List.mem_append_right _ (List.mem_cons_self _ _)
        · apply ihall sid hmem cs2
          rw [getSurf_of_surfaces_eq hsurf]
          exact hcs2



/-- **C4.** For every registered fully-valid surface `A` and every
CPU-originated invalidation (`region_owner = null`) of size at most 8
intersecting `A`'s interval, `InvalidateRegion` flushes `A` over its
entire interval, stages `A` for removal so that `A` is unregistered by the
end of the call, and afterwards `dirty_regions` contains no byte of the
invalidated interval. -/
theorem invalidateRegion_cpu_small_write (dl : DlWriter) (st : CacheState) (A : SurfaceM)
    (addr size : Nat)
    (hA : getSurf st A.sid = some A)
    (hreg : A.registered = true)
    (_hvalid : A.invalid_regions = [])
    (hsz : size ≤ 8)
    (hov : SIv.overlap A.interval (addr, addr + size) = true) :
    CEvent.flushCall A.sid A.interval ∈ (invalidateRegion dl st addr size none).2 ∧
    (getSurf (invalidateRegion dl st addr size none).1 A.sid).map SurfaceM.registered =
      some false ∧
    ∀ q ∈ (invalidateRegion dl st addr size none).1.dirty,
      SIv.overlap q.1 (addr, addr + size) = false := by
  have hsz0 : ¬ size = 0 := by
    simp only [SIv.overlap, decide_eq_true_eq] at hov
    omega
  have hmemA : A.sid ∈ (cacheSurfacesInRange st.surfaces (addr, addr + size)).map
      (fun s => s.sid) := by
    refine List.mem_map.mpr ⟨A, ?_, rfl⟩
    exact List.mem_filter.mpr ⟨(getSurf_mem hA).1, by simp [hreg, hov]⟩
  obtain ⟨hsurf, _, _, hall⟩ := invLoop_none_fold dl (addr, addr + size) size hsz
    ((cacheSurfacesInRange st.surfaces (addr, addr + size)).map fun s => s.sid)
    st [] st.remove_surfaces
  obtain ⟨hflush, hstaged⟩ := hall A.sid hmemA A hA
  set out := ((cacheSurfacesInRange st.surfaces (addr, addr + size)).map
    (fun s => s.sid)).foldl (invLoopStep dl (addr, addr + size) none size)
    (st, [], st.remove_surfaces) with hout
  have hres : invalidateRegion dl st addr size none =
      ({ (processRemovals { out.1 with dirty := dirtySub out.1.dirty (addr, addr + size) }
          none out.2.2).1 with remove_surfaces := [] },
        out.2.1 ++ (processRemovals { out.1 with
          dirty := dirtySub out.1.dirty (addr, addr + size) } none out.2.2).2) := by
    simp only [invalidateRegion, if_neg hsz0]
  obtain ⟨hrd, hrm, hrr, _⟩ := processRemovals_none_frame out.2.2
    { out.1 with dirty := dirtySub out.1.dirty (addr, addr + size) } []
  refine ⟨?_, ?_, ?_⟩
  · rw [hres]
    exact List.mem_append_left _ hflush
  · rw [hres]
    show (getSurf (processRemovals { out.1 with
        dirty := dirtySub out.1.dirty (addr, addr + size) } none out.2.2).1 A.sid).map
      SurfaceM.registered = some false
    apply processRemovals_none_unregisters out.2.2 _ _ A.sid hstaged
    have : getSurf { out.1 with dirty := dirtySub out.1.dirty (addr, addr + size) } A.sid =
        getSurf st A.sid := getSurf_of_surfaces_eq (by simpa using hsurf) A.sid
    rw [this, hA]
    rfl
  · rw [hres]
    intro q hq
    have hq2 : q ∈ dirtySub out.1.dirty (addr, addr + size) := by
      have : (processRemovals { out.1 with
          dirty := dirtySub out.1.dirty (addr, addr + size) } none out.2.2).1.dirty =
        dirtySub out.1.dirty (addr, addr + size) := hrd
      simpa [this] using hq
    obtain ⟨_, _, _, _, _, _, hqov⟩ := mem_dirtySub hq2
    exact hqov



/-- An abstract download writer that leaves guest memory unchanged, for
concrete witnesses. -/
def dlNoop : DlWriter := fun m _ => m

/-- A registered, fully valid 16-byte surface at address 100. -/
def surfC4 : SurfaceM := ⟨3, 100, 16, 4, 4, 4, 0, 1, false, SurfaceTypeM.Color, [], true, true⟩

/-- A cache holding `surfC4`, with one dirty piece it owns. -/
def stateC4 : CacheState := ⟨[surfC4], [((100, 108), 3)], [], fun _ => 0⟩

/-- Witness for `invalidateRegion_cpu_small_write`: a concrete 4-byte CPU
write into `surfC4` flushes it in full, unregisters it, and clears the
dirty bytes of the invalidated interval. -/
theorem invalidateRegion_cpu_small_write_witness :
    CEvent.flushCall surfC4.sid surfC4.interval ∈
      (invalidateRegion dlNoop stateC4 104 4 none).2 ∧
    (getSurf (invalidateRegion dlNoop stateC4 104 4 none).1 surfC4.sid).map
      SurfaceM.registered = some false ∧
    ∀ q ∈ (invalidateRegion dlNoop stateC4 104 4 none).1.dirty,
      SIv.overlap q.1 (104, 104 + 4) = false :=
  invalidateRegion_cpu_small_write dlNoop stateC4 surfC4 104 4 (by decide) (by decide)
    (by decide) (by decide) (by decide)



/-- Modelled from the spec (§4.1.6): "if it equals the owner, try to find
an `Expand|Invalid` successor in the cache" — the claimed successor is the
best `Expand|Invalid` match of the owner's params.  Compare with the
source, which uses `SubRect|Invalid` (rasterizer_cache.h:1175). -/
def specLocateSuccessor (st : CacheState) (owner : SurfaceM) : Option Nat :=
  (findMatch expandInvalidFlags owner.toParams ScaleMatchM.Ignore none st.surfaces).surface

/-- The staged owner: 32 bytes at address 0, scale 1, stride = width. -/
def surfOwnerC3 : SurfaceM :=
  ⟨0, 0, 32, 4, 8, 4, 0, 1, false, SurfaceTypeM.Color, [(0, 8)], true, true⟩

/-- A containing surface at scale 2 (the `SubRect|Invalid` winner). -/
def surfContainC3 : SurfaceM :=
  ⟨1, 0, 64, 4, 16, 4, 0, 2, false, SurfaceTypeM.Color, [(0, 8)], true, true⟩

/-- An overlapping but non-containing surface at scale 4 (the
`Expand|Invalid` winner). -/
def surfBesideC3 : SurfaceM :=
  ⟨2, 16, 64, 4, 16, 4, 0, 4, false, SurfaceTypeM.Color, [], true, true⟩

/-- A cache in which the owner is already staged for removal. -/
def stateC3 : CacheState :=
  ⟨[surfOwnerC3, surfContainC3, surfBesideC3], [], [0], fun _ => 0⟩

/-- **C3 counterexample.** `InvalidateRegion(0, 32, owner)` on `stateC3`
duplicates the owner into surface 1 — the `SubRect|Invalid` match — while
the spec's `Expand|Invalid` match of the owner's params is surface 2, and
the surface actually duplicated into does *not* have "at most the owner's
invalid bytes" (its invalid set is not contained in the owner's empty
one): the source's condition is the reverse inclusion
(rasterizer_cache.h:1179). -/
theorem invalidateRegion_successor_cex :
    CEvent.duplicateEv 0 1 ∈ (invalidateRegion dlNoop stateC3 0 32 (some 0)).2 ∧
    specLocateSuccessor stateC3 surfOwnerC3 = some 2 ∧
    regionsSubset [(0, 32), (0, 8)] ([] : List SIv) = false :=
  ⟨by decide, by decide, by decide⟩



lemma removalStep_ne (o : Nat) (s : CacheState) (evs : List CEvent) (rid : Nat)
    (h : rid ≠ o) :
    removalStep (some o) (s, evs) rid =
      ((unregisterSurface s rid).1, evs ++ (unregisterSurface s rid).2) := by
  unfold removalStep
  dsimp only
  rw [if_neg (show ¬ (some o = some rid) by simp [Ne.symm h])]

lemma duplicateSurface_events (st : CacheState) (src dst : Nat) :
    (duplicateSurface st src dst).2 = [CEvent.duplicateEv src dst] := by
  unfold duplicateSurface
  cases getSurf st src <;> rfl

lemma duplicateSurface_presence (st : CacheState) (src dst rid : Nat) :
    (getSurf (duplicateSurface st src dst).1 rid).isSome = (getSurf st rid).isSome := by
  unfold duplicateSurface
  cases hs : getSurf st src with
  | none => rfl
  | some ss =>
    dsimp only
    show (getSurf (updSurf st dst fun d =>
      { d with invalid_regions :=
          ss.invalid_regions ++ regionsErase d.invalid_regions ss.interval }) rid).isSome = _
    by_cases hd : rid = dst
    · subst hd
      rw [getSurf_updSurf_self st rid (fun d =>
        { d with invalid_regions :=
            ss.invalid_regions ++ regionsErase d.invalid_regions ss.interval }) fun t => rfl]
      cases getSurf st rid <;> rfl
    · rw [getSurf_updSurf_ne st dst rid (fun d =>
        { d with invalid_regions :=
            ss.invalid_regions ++ regionsErase d.invalid_regions ss.interval })
        (fun t => rfl) hd]

/-- Folding the removal step over staged surfaces distinct from the owner:
events persist and only `unregisterEv`s are added, the owner's entry is
untouched, unregistered flags persist, and every present staged surface
ends unregistered. -/
lemma processRemovals_rest (o : Nat) :
    ∀ (rest : List Nat) (s : CacheState) (evs : List CEvent), (∀ r ∈ rest, r ≠ o) →
      (∀ e ∈ evs, e ∈ (rest.foldl (removalStep (some o)) (s, evs)).2) ∧
      (∀ e ∈ (rest.foldl (removalStep (some o)) (s, evs)).2,
        e ∈ evs ∨ ∃ x, e = CEvent.unregisterEv x) ∧
      getSurf (rest.foldl (removalStep (some o)) (s, evs)).1 o = getSurf s o ∧
      (∀ rid, (getSurf s rid).map SurfaceM.registered = some false →
        (getSurf (rest.foldl (removalStep (some o)) (s, evs)).1 rid).map SurfaceM.registered =
          some false) ∧
      (∀ rid ∈ rest, (getSurf s rid).isSome = true →
        (getSurf (rest.foldl (removalStep (some o)) (s, evs)).1 rid).map SurfaceM.registered =
          some false) := by
  intro rest
  induction rest with
  | nil =>
    intro s evs _
    exact ⟨fun e he => he, fun e he => Or.inl he, rfl, fun rid h => h,
      fun rid h => absurd h (List.not_mem_nil rid)⟩
  | cons a l ih =>
    intro s evs hne
    have ha : a ≠ o := hne a (List.mem_cons_self a l)
    have hl : ∀ r ∈ l, r ≠ o := fun r hr => hne r (List.mem_cons_of_mem a hr)
    rw [List.foldl_cons, removalStep_ne o s evs a ha]
    obtain ⟨ihkeep, ihnew, iho, ihfalse, ihunreg⟩ :=
      ih (unregisterSurface s a).1 (evs ++ (unregisterSurface s a).2) hl
    refine ⟨fun e he => ihkeep e (List.mem_append_left _ he), ?_, ?_, ?_, ?_⟩
    · intro e he
      rcases ihnew e he with hin | hx
      · rcases List.mem_append.mp hin with hin2 | hin2
        · exact Or.inl hin2
        · -- events added by one unregister step are unregister events
          right
          unfold unregisterSurface at hin2
          rcases hu : getSurf s a with _ | u
          · rw [hu] at hin2; simp at hin2
          · rw [hu] at hin2
            dsimp only at hin2
            by_cases hr : u.registered
            · rw [if_pos hr] at hin2
              simp only [List.mem_singleton] at hin2
              exact ⟨a, hin2⟩
            · rw [if_neg hr] at hin2
              simp at hin2
      · exact Or.inr hx
    · rw [iho]
      exact unregisterSurface_other (Ne.symm ha)
    · intro rid h
      exact ihfalse rid (unregisterSurface_keeps_false h)
    · intro rid hrid hsome
      rcases List.mem_cons.mp hrid with rfl | hmem
      · cases hx : getSurf s rid with
        | none => rw [hx] at hsome; simp at hsome
        | some t => exact ihfalse rid (unregisterSurface_self hx)
      · apply ihunreg rid hmem
        rw [unregisterSurface_presence]
        exact hsome



/-- **C3 (amended).** In `InvalidateRegion`, when a staged surface equals
the `region_owner`, the successor surface is located by a
`SubRect|Invalid` match against the owner's params, and the owner's
contents are duplicated into it exactly when the owner's invalid bytes are
all contained in the successor's invalid bytes (the owner is then
unregistered; when the condition fails nothing is duplicated and the owner
is left untouched); all other staged surfaces are simply unregistered. -/
theorem invalidateRegion_staged_removal (st : CacheState) (o mid : Nat)
    (ow ms : SurfaceM) (rest : List Nat)
    (ho : getSurf st o = some ow)
    (hrest : ∀ r ∈ rest, r ≠ o)
    (hm : (findMatch subrectInvalidFlags ow.toParams ScaleMatchM.Ignore none
        st.surfaces).surface = some mid)
    (hms : getSurf st mid = some ms) :
    (regionsSubset ow.invalid_regions ms.invalid_regions = true →
      CEvent.duplicateEv o mid ∈ (processRemovals st (some o) (o :: rest)).2 ∧
      (getSurf (processRemovals st (some o) (o :: rest)).1 o).map SurfaceM.registered =
        some false) ∧
    (regionsSubset ow.invalid_regions ms.invalid_regions = false →
      (∀ a b, CEvent.duplicateEv a b ∉ (processRemovals st (some o) (o :: rest)).2) ∧
      getSurf (processRemovals st (some o) (o :: rest)).1 o = getSurf st o) ∧
    (∀ rid ∈ rest, (getSurf st rid).isSome = true →
      (getSurf (processRemovals st (some o) (o :: rest)).1 rid).map SurfaceM.registered =
        some false) := by
  unfold processRemovals
  rw [List.foldl_cons]
  by_cases hcond : regionsSubset ow.invalid_regions ms.invalid_regions = true
  · have hstep : removalStep (some o) (st, []) o =
        ((unregisterSurface (duplicateSurface st o mid).1 o).1,
          ([] ++ (duplicateSurface st o mid).2) ++
            (unregisterSurface (duplicateSurface st o mid).1 o).2) := by
      unfold removalStep
      dsimp only
      rw [if_pos rfl, ho]
      dsimp only
      rw [hm]
      dsimp only
      rw [hms]
      dsimp only
      rw [if_pos hcond]
    rw [hstep]
    obtain ⟨ihkeep, _, _, ihfalse, ihunreg⟩ := processRemovals_rest o rest
      (unregisterSurface (duplicateSurface st o mid).1 o).1
      (([] ++ (duplicateSurface st o mid).2) ++
        (unregisterSurface (duplicateSurface st o mid).1 o).2) hrest
    have hpres : (getSurf (duplicateSurface st o mid).1 o).isSome = true := by
      rw [duplicateSurface_presence, ho]
      rfl
    have hofalse : (getSurf (unregisterSurface (duplicateSurface st o mid).1 o).1 o).map
        SurfaceM.registered = some false := by
      cases hx : getSurf (duplicateSurface st o mid).1 o with
      | none => rw [hx] at hpres; simp at hpres
      | some t => exact unregisterSurface_self hx
    refine ⟨fun _ => ⟨?_, ihfalse o hofalse⟩, fun hfalse => ?_, ?_⟩
    · apply ihkeep
      apply List.mem_append_left
      apply List.mem_append_right
      rw [duplicateSurface_events]
      exact List.mem_singleton.mpr rfl
    · rw [hfalse] at hcond
      cases hcond
    · intro rid hrid hsome
      apply ihunreg rid hrid
      rw [unregisterSurface_presence, duplicateSurface_presence]
      exact hsome
  · have hcondf : regionsSubset ow.invalid_regions ms.invalid_regions = false :=
      Bool.not_eq_true _ ▸ (by simpa using hcond)
    have hstep : removalStep (some o) (st, []) o = (st, []) := by
      unfold removalStep
      dsimp only
      rw [if_pos rfl, ho]
      dsimp only
      rw [hm]
      dsimp only
      rw [hms]
      dsimp only
      rw [if_neg hcond]
    rw [hstep]
    obtain ⟨_, ihnew, iho, _, ihunreg⟩ := processRemovals_rest o rest st [] hrest
    refine ⟨fun htrue => absurd htrue hcond, fun _ => ⟨?_, iho⟩, fun rid hrid => ihunreg rid hrid⟩
    intro a b hab
    rcases ihnew _ hab with hin | ⟨x, hx⟩
    · exact absurd hin (List.not_mem_nil _)
    · cases hx



/-- A staged owner with no invalid bytes. -/
def surfOwnerW : SurfaceM :=
  ⟨0, 0, 32, 4, 8, 4, 0, 1, false, SurfaceTypeM.Color, [], true, true⟩

/-- The containing `SubRect|Invalid` successor, partially invalid. -/
def surfContainW : SurfaceM :=
  ⟨1, 0, 64, 4, 16, 4, 0, 2, false, SurfaceTypeM.Color, [(0, 8)], true, true⟩

/-- An unrelated staged surface. -/
def surfFarW : SurfaceM :=
  ⟨5, 200, 16, 4, 4, 4, 0, 1, false, SurfaceTypeM.Color, [], true, true⟩

/-- A cache for the staged-removal witness. -/
def stateRemW : CacheState := ⟨[surfOwnerW, surfContainW, surfFarW], [], [], fun _ => 0⟩

/-- Witness for `invalidateRegion_staged_removal` at a concrete cache:
the owner is duplicated into the `SubRect|Invalid` successor (surface 1)
and unregistered, and the other staged surface (surface 5) is
unregistered. -/
theorem invalidateRegion_staged_removal_witness :
    (regionsSubset surfOwnerW.invalid_regions surfContainW.invalid_regions = true →
      CEvent.duplicateEv 0 1 ∈ (processRemovals stateRemW (some 0) (0 :: [5])).2 ∧
      (getSurf (processRemovals stateRemW (some 0) (0 :: [5])).1 0).map SurfaceM.registered =
        some false) ∧
    (regionsSubset surfOwnerW.invalid_regions surfContainW.invalid_regions = false →
      (∀ a b, CEvent.duplicateEv a b ∉ (processRemovals stateRemW (some 0) (0 :: [5])).2) ∧
      getSurf (processRemovals stateRemW (some 0) (0 :: [5])).1 0 = getSurf stateRemW 0) ∧
    (∀ rid ∈ [5], (getSurf stateRemW rid).isSome = true →
      (getSurf (processRemovals stateRemW (some 0) (0 :: [5])).1 rid).map SurfaceM.registered =
        some false) :=
  invalidateRegion_staged_removal stateRemW 0 1 surfOwnerW surfContainW [5]
    (by decide) (by decide) (by decide) (by decide)



/-- Witness for `uniform_value_update_dirty` at concrete registers and the
concrete shadow `ubdFogWhite` (whose stage-0 const color already equals
`ColorRGBA8 0`): the copy lands in the shadow, other stages are untouched,
an unchanged write leaves the state unchanged, and `SyncFogColor` sets
`dirty`. -/
theorem uniform_value_update_dirty_witness :
    (syncTevConstColor 0 0 ubdFogWhite).const_color 0 = colorRGBA8 0 ∧
    (syncTevConstColor 0 0 ubdFogWhite).const_color 1 = ubdFogWhite.const_color 1 ∧
    syncTevConstColor 0 0 ubdFogWhite = ubdFogWhite ∧
    (syncFogColor 1 2 3 ubdFogWhite).dirty = true :=
  ⟨(uniform_value_update_dirty 0 0 1 2 3 ubdFogWhite).1.1,
   (uniform_value_update_dirty 0 0 1 2 3 ubdFogWhite).1.2.1 1 (by decide),
   (uniform_value_update_dirty 0 0 1 2 3 ubdFogWhite).1.2.2.2 (by
     show colorRGBA8 0 = ubdFogWhite.const_color 0
     simp [colorRGBA8, ubdFogWhite]),
   (uniform_value_update_dirty 0 0 1 2 3 ubdFogWhite).2.2⟩


end VideoCore
